import Mathlib

/-!
# Verification of the macro-agent core (`src/skills/macro-agent/macro_agent.py`)

Shallow embedding of the element registry, screen matcher, human-motion
synthesizer, keyboard/typing helpers and the action interpreter of the
macro-agent skill, together with proofs settling the specification claims.

Modelling conventions:
* Python `str` is Lean `String`; `str.lower()` is modelled by `pyLower`.
* Python dicts holding the element registry are modelled as insertion-ordered
  association lists (`List (String × Elem)`); dict assignment replaces the
  value at the existing key in place (or appends a fresh key at the end),
  which is exactly CPython's insertion-order semantics.
* Python floats (match scores, durations) are modelled as rationals `ℚ`.
* Randomness (`random.uniform`, `random.random`, ...) is modelled by an
  explicit oracle record supplied as an argument; theorems quantify over all
  oracles, i.e. over every possible outcome of the randomization.
-/

namespace MacroAgent

/-! ## String helpers (Python `in`, substring test) -/

/-- `listIsPrefixOf needle hay`: `needle` is a prefix of `hay`. -/
def listIsPrefixOf : List Char → List Char → Bool
  | [], _ => true
  | _ :: _, [] => false
  | a :: as, b :: bs => a == b && listIsPrefixOf as bs

/-- `listHasSub needle hay`: `needle` occurs contiguously inside `hay`
(Python's `needle in hay` on strings). -/
def listHasSub (needle : List Char) : List Char → Bool
  | [] => listIsPrefixOf needle []
  | b :: bs => listIsPrefixOf needle (b :: bs) || listHasSub needle bs

/-- Python `needle in hay` for strings: contiguous substring test. -/
def strIn (needle hay : String) : Bool :=
  listHasSub needle.toList hay.toList

/-- Python `str.lower()`, modelled with the ASCII case mapping
(`Char.toLower`), written over the character list so that it evaluates in the
kernel. -/
def pyLower (s : String) : String :=
  String.mk (s.toList.map Char.toLower)

/-- Python `s.replace(' ', '_')`: the pattern and replacement are single
characters, so it is character-wise replacement. -/
def pyReplaceChar (pat rep : Char) (s : String) : String :=
  String.mk (s.toList.map (fun c => if c = pat then rep else c))

/-! ## Element registry (`load_elements` / `get_element` / `add_element` /
`add_image_to_element`) -/

/-- One element record of `elements.json`:
`{name, description, images: [filenames], tags: [strings]}`. -/
structure Elem where
  name : String
  description : String
  images : List String
  tags : List String
deriving Repr, DecidableEq

/-- The element registry: a JSON object mapping element keys to records,
modelled as an insertion-ordered association list. -/
abbrev Elements := List (String × Elem)

/-- Python dict membership/indexing: value at the first occurrence of `key`. -/
def lookupKey (elements : Elements) (key : String) : Option Elem :=
  (elements.find? (fun kv => kv.1 == key)).map (·.2)

/-- Python dict assignment `d[key] = v`: replace the value at the existing
key in place, else append the new key at the end. -/
def setKey : Elements → String → Elem → Elements
  | [], key, e => [(key, e)]
  | kv :: rest, key, e =>
    if kv.1 == key then (key, e) :: rest else kv :: setKey rest key e

/-- `get_element` (macro_agent.py:107-127): exact key match on the lowercased
query, then query-substring-of-key (case-insensitive), then
query-substring-of-some-tag (case-insensitive); first hit wins, `none` if
nothing matches. -/
def get_element (elements : Elements) (name : String) : Option Elem :=
  let name_lower := pyLower name
  match elements.find? (fun kv => kv.1 == name_lower) with
  | some kv => some kv.2
  | none =>
    match elements.find? (fun kv => strIn name_lower (pyLower kv.1)) with
    | some kv => some kv.2
    | none =>
      match elements.find? (fun kv => kv.2.tags.any (fun tag => strIn name_lower (pyLower tag))) with
      | some kv => some kv.2
      | none => none

/-- Spec-side formalisation of the C4 resolution order, following the spec's
words: collect the exact-key hits, then the substring-in-key hits, then the
substring-in-tag hits, and return the record of the first hit overall (or
none). To be compared with `get_element`, the definition taken from the
source. -/
def specResolve (elements : Elements) (name : String) : Option Elem :=
  let q := pyLower name
  let exactHits := elements.filter (fun kv => kv.1 == q)
  let keyHits := elements.filter (fun kv => strIn q (pyLower kv.1))
  let tagHits := elements.filter (fun kv => kv.2.tags.any (fun t => strIn q (pyLower t)))
  ((exactHits ++ keyHits ++ tagHits).head?).map (·.2)

/-- `add_element` (macro_agent.py:130-145): normalize the key
(`name.lower().replace(' ', '_')`), store a entirely fresh record under it
(`images or []`, `tags or []` default to the empty list), return the stored
record. The updated registry is returned alongside (the Python code writes it
back to disk with `save_elements`). -/
def add_element (elements : Elements) (name : String) (description : String)
    (images : Option (List String)) (tags : Option (List String)) : Elements × Elem :=
  let name_key := pyReplaceChar ' ' '_' (pyLower name)
  let e : Elem :=
    { name := name_key
      description := description
      images := images.getD []
      tags := tags.getD [] }
  (setKey elements name_key e, e)

/-- `add_image_to_element` (macro_agent.py:148-165): append `image_file` to an
existing element's images (only when not already present), or create a
minimal element carrying just that image. -/
def add_image_to_element (elements : Elements) (name : String) (image_file : String) :
    Elements × Elem :=
  let name_key := pyReplaceChar ' ' '_' (pyLower name)
  match lookupKey elements name_key with
  | some e =>
    let e' := if e.images.contains image_file then e
              else { e with images := e.images ++ [image_file] }
    (setKey elements name_key e', e')
  | none =>
    let e : Elem := { name := name_key, description := "", images := [image_file], tags := [] }
    (setKey elements name_key e, e)

/-! ### Helper lemmas on the registry model -/

theorem find?_eq_head?_filter (p : α → Bool) (l : List α) :
    l.find? p = (l.filter p).head? := by
  induction l with
  | nil => rfl
  | cons a as ih =>
    by_cases h : p a
    · rw [List.find?_cons_of_pos _ h, List.filter_cons_of_pos h, List.head?_cons]
    · rw [List.find?_cons_of_neg _ (by simpa using h), List.filter_cons_of_neg (by simpa using h), ih]

theorem setKey_nil (key : String) (e : Elem) : setKey [] key e = [(key, e)] := rfl

theorem setKey_cons_eq (kv : String × Elem) (rest : Elements) (key : String) (e : Elem)
    (h : kv.1 = key) : setKey (kv :: rest) key e = (key, e) :: rest := by
  simp only [setKey]
  rw [if_pos (beq_iff_eq.mpr h)]

theorem setKey_cons_ne (kv : String × Elem) (rest : Elements) (key : String) (e : Elem)
    (h : kv.1 ≠ key) : setKey (kv :: rest) key e = kv :: setKey rest key e := by
  simp only [setKey]
  rw [if_neg (fun hc => h (beq_iff_eq.mp hc))]

theorem lookupKey_cons_eq (kv : String × Elem) (rest : Elements) (k : String)
    (h : kv.1 = k) : lookupKey (kv :: rest) k = some kv.2 := by
  unfold lookupKey
  rw [List.find?_cons_of_pos _ (by simpa using h)]
  rfl

theorem lookupKey_cons_ne (kv : String × Elem) (rest : Elements) (k : String)
    (h : kv.1 ≠ k) : lookupKey (kv :: rest) k = lookupKey rest k := by
  unfold lookupKey
  rw [List.find?_cons_of_neg _ (by simpa using h)]

theorem lookupKey_setKey_self (elements : Elements) (key : String) (e : Elem) :
    lookupKey (setKey elements key e) key = some e := by
  induction elements with
  | nil => rw [setKey_nil, lookupKey_cons_eq _ _ _ rfl]
  | cons kv rest ih =>
    by_cases h : kv.1 = key
    · rw [setKey_cons_eq _ _ _ _ h, lookupKey_cons_eq _ _ _ rfl]
    · rw [setKey_cons_ne _ _ _ _ h, lookupKey_cons_ne _ _ _ h, ih]

theorem lookupKey_setKey_other (elements : Elements) (key k : String) (e : Elem)
    (hk : k ≠ key) : lookupKey (setKey elements key e) k = lookupKey elements k := by
  induction elements with
  | nil =>
    rw [setKey_nil, lookupKey_cons_ne _ _ _ (fun hc => hk hc.symm)]
  | cons kv rest ih =>
    by_cases h : kv.1 = key
    · rw [setKey_cons_eq _ _ _ _ h,
        lookupKey_cons_ne (key, e) _ _ (fun hc => hk hc.symm),
        lookupKey_cons_ne kv _ _ (fun hc => hk (h ▸ hc).symm)]
    · by_cases h2 : kv.1 = k
      · rw [setKey_cons_ne _ _ _ _ h, lookupKey_cons_eq _ _ _ h2, lookupKey_cons_eq _ _ _ h2]
      · rw [setKey_cons_ne _ _ _ _ h, lookupKey_cons_ne _ _ _ h2, lookupKey_cons_ne _ _ _ h2, ih]

/-- The values stored in `setKey elements key e` are `e` plus (a subset of)
the values already stored. -/
theorem mem_setKey (elements : Elements) (key : String) (e : Elem) :
    ∀ kv ∈ setKey elements key e, kv.2 = e ∨ kv ∈ elements := by
  induction elements with
  | nil =>
    intro kv h
    rw [setKey_nil] at h
    rcases List.mem_singleton.mp h with h
    left; rw [h]
  | cons kv0 rest ih =>
    intro kv h
    by_cases hk : kv0.1 = key
    · rw [setKey_cons_eq _ _ _ _ hk] at h
      rcases List.mem_cons.mp h with h | h
      · left; rw [h]
      · right; exact List.mem_cons_of_mem _ h
    · rw [setKey_cons_ne _ _ _ _ hk] at h
      rcases List.mem_cons.mp h with h | h
      · right; rw [h]; exact List.mem_cons_self _ _
      · rcases ih kv h with h' | h'
        · exact Or.inl h'
        · exact Or.inr (List.mem_cons_of_mem _ h')

theorem head?_append_or {α : Type} (a b : List α) :
    (a ++ b).head? = (a.head?).or b.head? := by
  cases a <;> rfl

/-! ## Claims C4, C10, C8 -/

/-- C4: for every registry mapping and every query name, `get_element`
resolves by, in order, exact match of the lowercased query against a key,
then query-substring-of-key, then query-substring-of-some-tag
(case-insensitively), returning the record of the first hit; if nothing
matches it returns `none` (no error is raised). Stated as: `get_element`
coincides with `specResolve`, the direct formalisation of the spec's
resolution order. -/
theorem claim_C4_get_element_resolution (elements : Elements) (name : String) :
    get_element elements name = specResolve elements name := by
  simp only [get_element, specResolve]
  rw [find?_eq_head?_filter, find?_eq_head?_filter, find?_eq_head?_filter]
  rw [show ∀ (a b c : List (String × Elem)), a ++ b ++ c = a ++ (b ++ c) from
    fun a b c => List.append_assoc a b c]
  rw [head?_append_or, head?_append_or]
  cases (elements.filter fun kv => kv.1 == pyLower name).head? with
  | some kv => rfl
  | none =>
    cases (elements.filter fun kv => strIn (pyLower name) (pyLower kv.1)).head? with
    | some kv => rfl
    | none =>
      cases (elements.filter fun kv =>
          kv.2.tags.any fun tag => strIn (pyLower name) (pyLower tag)).head? with
      | some kv => rfl
      | none => rfl

/-- C10: `add_element` replaces the stored record for the normalized key
(lowercased, spaces replaced by underscores) in its entirety: afterwards the
record equals exactly `{name := key, description, images := images-or-[],
tags := tags-or-[]}` (anything previously stored under that key is
discarded), and every other element of the mapping is unchanged. -/
theorem claim_C10_add_element_replaces (elements : Elements) (name description : String)
    (images tags : Option (List String)) :
    (add_element elements name description images tags).2 =
      { name := pyReplaceChar ' ' '_' (pyLower name)
        description := description
        images := images.getD []
        tags := tags.getD [] } ∧
    lookupKey (add_element elements name description images tags).1
        (pyReplaceChar ' ' '_' (pyLower name)) =
      some (add_element elements name description images tags).2 ∧
    (∀ k, k ≠ pyReplaceChar ' ' '_' (pyLower name) →
      lookupKey (add_element elements name description images tags).1 k =
        lookupKey elements k) := by
  refine ⟨rfl, lookupKey_setKey_self .., ?_⟩
  intro k hk
  exact lookupKey_setKey_other _ _ _ _ hk

/-- Witness for C10: concrete run in which a previously stored record under
the key is wholly replaced and an unrelated element is untouched. -/
theorem claim_C10_witness :
    lookupKey (add_element
        [("other", ⟨"other", "o", ["o.png"], []⟩),
         ("my_key", ⟨"my_key", "old", ["old.png"], ["t"]⟩)]
        "My Key" "d" (some ["i.png"]) none).1 "other" =
      lookupKey
        [("other", ⟨"other", "o", ["o.png"], []⟩),
         ("my_key", ⟨"my_key", "old", ["old.png"], ["t"]⟩)] "other" :=
  (claim_C10_add_element_replaces
    [("other", ⟨"other", "o", ["o.png"], []⟩),
     ("my_key", ⟨"my_key", "old", ["old.png"], ["t"]⟩)]
    "My Key" "d" (some ["i.png"]) none).2.2 "other" (by decide)

/-- C8, counterexample to the claim as stated: `add_element` stores the
caller-supplied images list verbatim, so supplying a list with a duplicate
filename leaves a stored record whose images list has duplicates. -/
theorem claim_C8_counterexample :
    ¬ (∀ kv ∈ (add_element [] "e" "" (some ["a.png", "a.png"]) none).1,
        kv.2.images.Nodup) := by
  intro h
  have := h ("e", ⟨"e", "", ["a.png", "a.png"], []⟩) (by decide)
  simp at this

/-- C8 (amended): provided every stored images list is duplicate-free,
`add_image_to_element` keeps every images list duplicate-free, and
`add_element` does too whenever the images list supplied to it is itself
duplicate-free. -/
theorem claim_C8_images_nodup (elements : Elements)
    (hinv : ∀ kv ∈ elements, kv.2.images.Nodup) :
    (∀ name description images tags, (images.getD ([] : List String)).Nodup →
      ∀ kv ∈ (add_element elements name description images tags).1, kv.2.images.Nodup) ∧
    (∀ name image_file,
      ∀ kv ∈ (add_image_to_element elements name image_file).1, kv.2.images.Nodup) := by
  constructor
  · intro name description images tags himg kv hkv
    rcases mem_setKey _ _ _ kv hkv with h | h
    · rw [h]; exact himg
    · exact hinv kv h
  · intro name image_file kv hkv
    simp only [add_image_to_element] at hkv
    cases hlk : lookupKey elements (pyReplaceChar ' ' '_' (pyLower name)) with
    | some e =>
      rw [hlk] at hkv
      simp only at hkv
      rcases mem_setKey _ _ _ kv hkv with h | h
      · have he : e.images.Nodup := by
          unfold lookupKey at hlk
          cases hf : elements.find? (fun kv => kv.1 == pyReplaceChar ' ' '_' (pyLower name)) with
          | none => rw [hf] at hlk; simp at hlk
          | some kv0 =>
            rw [hf] at hlk
            simp only [Option.map_some'] at hlk
            have hmem := List.mem_of_find?_eq_some hf
            have := hinv kv0 hmem
            rw [Option.some.injEq] at hlk
            rw [← hlk]
            exact this
        rw [h]
        by_cases hc : e.images.contains image_file
        · rw [if_pos hc]; exact he
        · rw [if_neg hc]
          simp only []
          have hnm : image_file ∉ e.images := fun hm => hc (List.elem_iff.mpr hm)
          have := List.Nodup.concat hnm he
          rwa [List.concat_eq_append] at this
      · exact hinv kv h
    | none =>
      rw [hlk] at hkv
      simp only at hkv
      rcases mem_setKey _ _ _ kv hkv with h | h
      · rw [h]; exact List.nodup_singleton _
      · exact hinv kv h

/-- Witness for C8: concrete registry, one `add_element` call with a
duplicate-free images list and one `add_image_to_element` call, both leaving
every stored images list duplicate-free. -/
theorem claim_C8_witness :
    (∀ kv ∈ (add_element [("b", ⟨"b", "", ["x.png"], []⟩)] "E" "d"
        (some ["i.png", "j.png"]) none).1, kv.2.images.Nodup) ∧
    (∀ kv ∈ (add_image_to_element [("b", ⟨"b", "", ["x.png"], []⟩)] "b" "x.png").1,
      kv.2.images.Nodup) :=
  ⟨(claim_C8_images_nodup [("b", ⟨"b", "", ["x.png"], []⟩)] (by decide)).1
      "E" "d" (some ["i.png", "j.png"]) none (by decide),
   (claim_C8_images_nodup [("b", ⟨"b", "", ["x.png"], []⟩)] (by decide)).2
      "b" "x.png"⟩

/-! ## JSON persistence (`save_elements` / `load_elements`)

`save_elements` writes the registry with `json.dump(elements, f, indent=2,
ensure_ascii=False)`; `load_elements` reads it back with `json.load` (and
returns the empty mapping when the file is absent).  The embedding renders
the element mapping to the exact text `json.dump` produces and parses it
back with a recursive-descent JSON reader for the element-file grammar
(objects, arrays, strings — the only JSON values a well-formed element
mapping contains), decoding the same escape sequences `json` uses. -/

/-- Lowercase hex digit, as produced by `json`'s `\uXXXX` escapes. -/
def hexDigitChar (n : Nat) : Char :=
  if n < 10 then Char.ofNat (48 + n) else Char.ofNat (87 + n)

/-- `json.dump` string escaping with `ensure_ascii=False`: escape `"`,
backslash and control characters (short escapes for the common ones, `\u00XX`
for the rest); everything else is emitted verbatim. -/
def escChar (c : Char) : List Char :=
  if c = '"' then ['\\', '"']
  else if c = '\\' then ['\\', '\\']
  else if c = '\n' then ['\\', 'n']
  else if c = '\r' then ['\\', 'r']
  else if c = '\t' then ['\\', 't']
  else if c = '\x08' then ['\\', 'b']
  else if c = '\x0c' then ['\\', 'f']
  else if c.toNat < 0x20 then
    ['\\', 'u', '0', '0', hexDigitChar (c.toNat / 16), hexDigitChar (c.toNat % 16)]
  else [c]

/-- Rendered JSON string literal (both delimiting quotes included). -/
def renderStrChars (s : String) : List Char :=
  '"' :: (s.toList.map escChar).flatten ++ ['"']

/-- `n` spaces of indentation. -/
def nSpaces (n : Nat) : List Char := List.replicate n ' '

/-- Join pre-rendered pieces with a separator (`str.join` in Python,
what `json.dump` effectively does between items). -/
def joinSep (sep : List Char) : List (List Char) → List Char
  | [] => []
  | [x] => x
  | x :: y :: ys => x ++ sep ++ joinSep sep (y :: ys)

/-- An `indent=2` block (object or array) at indentation level `lvl`:
`json.dump` writes the opening bracket, a newline, each item indented by
`lvl + 2` and separated by `",\n"`, then a newline, `lvl` spaces and the
closing bracket; an empty block is the two brackets with nothing between. -/
def renderBlock (opener closer : Char) (lvl : Nat) (items : List (List Char)) : List Char :=
  match items with
  | [] => [opener, closer]
  | _ =>
    opener :: '\n' :: joinSep [',', '\n'] (items.map (fun it => nSpaces (lvl + 2) ++ it)) ++
      '\n' :: (nSpaces lvl ++ [closer])

/-- Rendered array of strings at indentation level `lvl`. -/
def renderArrChars (lvl : Nat) (xs : List String) : List Char :=
  renderBlock '[' ']' lvl (xs.map renderStrChars)

/-- Rendered element record (a four-field JSON object) at level `lvl`. -/
def renderElemChars (lvl : Nat) (e : Elem) : List Char :=
  renderBlock '{' '}' lvl
    [renderStrChars "name" ++ ':' :: ' ' :: renderStrChars e.name,
     renderStrChars "description" ++ ':' :: ' ' :: renderStrChars e.description,
     renderStrChars "images" ++ ':' :: ' ' :: renderArrChars (lvl + 2) e.images,
     renderStrChars "tags" ++ ':' :: ' ' :: renderArrChars (lvl + 2) e.tags]

/-- Rendered element file: the top-level JSON object of all elements. -/
def renderElementsChars (m : Elements) : List Char :=
  renderBlock '{' '}' 0
    (m.map (fun kv => renderStrChars kv.1 ++ ':' :: ' ' :: renderElemChars 2 kv.2))

/-- `save_elements` (macro_agent.py:101-104): serialize the registry with
`json.dump(elements, f, indent=2, ensure_ascii=False)`; the result is the
file's new content. -/
def save_elements (elements : Elements) : String :=
  String.mk (renderElementsChars elements)

/-! ### JSON reader (the `json.load` side, on the element-file grammar)

The recursive readers carry an explicit fuel argument (structural recursion
on the fuel); `load_elements` supplies `input length + 1`, which is always
sufficient because every recursive step consumes at least one input
character. -/

/-- Skip JSON whitespace. -/
def skipWs : List Char → List Char
  | [] => []
  | c :: cs => if c = ' ' ∨ c = '\n' ∨ c = '\t' ∨ c = '\r' then skipWs cs else c :: cs

/-- Hex digit value. -/
def hexVal (c : Char) : Option Nat :=
  if '0' ≤ c ∧ c ≤ '9' then some (c.toNat - 48)
  else if 'a' ≤ c ∧ c ≤ 'f' then some (c.toNat - 87)
  else if 'A' ≤ c ∧ c ≤ 'F' then some (c.toNat - 55)
  else none

/-- Decode a single-character escape (`\"`, `\\`, `\/`, `\n`, ...). -/
def unescChar (c : Char) : Option Char :=
  if c = '"' then some '"'
  else if c = '\\' then some '\\'
  else if c = '/' then some '/'
  else if c = 'n' then some '\n'
  else if c = 'r' then some '\r'
  else if c = 't' then some '\t'
  else if c = 'b' then some '\x08'
  else if c = 'f' then some '\x0c'
  else none

/-- Parse the body of a JSON string literal (the opening quote has been
consumed); returns the decoded characters and the input after the closing
quote. One unit of fuel per decoded character. -/
def parseStrBody : Nat → List Char → Option (List Char × List Char)
  | 0, _ => none
  | _ + 1, [] => none
  | fuel + 1, c :: rest =>
    if c = '"' then some ([], rest)
    else if c = '\\' then
      match rest with
      | [] => none
      | e :: rest2 =>
        if e = 'u' then
          match rest2 with
          | h1 :: h2 :: h3 :: h4 :: rest3 =>
            match hexVal h1, hexVal h2, hexVal h3, hexVal h4 with
            | some d1, some d2, some d3, some d4 =>
              let n := ((d1 * 16 + d2) * 16 + d3) * 16 + d4
              if h : n.isValidChar then
                (parseStrBody fuel rest3).map (fun p => (Char.ofNatAux n h :: p.1, p.2))
              else none
            | _, _, _, _ => none
          | _ => none
        else
          match unescChar e with
          | none => none
          | some c2 => (parseStrBody fuel rest2).map (fun p => (c2 :: p.1, p.2))
    else (parseStrBody fuel rest).map (fun p => (c :: p.1, p.2))

/-- Parse a JSON string literal (leading whitespace allowed). -/
def parseJString (fuel : Nat) (l : List Char) : Option (String × List Char) :=
  match skipWs l with
  | '"' :: rest => (parseStrBody fuel rest).map (fun p => (String.mk p.1, p.2))
  | _ => none

/-- Parse the items of a non-empty string array, positioned at the first
item; consumes the closing `]`. -/
def parseArrItems : Nat → List Char → Option (List String × List Char)
  | 0, _ => none
  | fuel + 1, l =>
    match parseJString fuel l with
    | none => none
    | some (s, r) =>
      match skipWs r with
      | ',' :: r2 =>
        match parseArrItems fuel r2 with
        | none => none
        | some (ss, r3) => some (s :: ss, r3)
      | ']' :: r2 => some ([s], r2)
      | _ => none

/-- Parse a string array (leading whitespace allowed). -/
def parseStrArr (fuel : Nat) (l : List Char) : Option (List String × List Char) :=
  match skipWs l with
  | '[' :: r =>
    match skipWs r with
    | ']' :: r2 => some ([], r2)
    | r2 => parseArrItems fuel r2
  | _ => none

/-- A field value of an element record: a string or an array of strings. -/
inductive FieldVal where
  | s : String → FieldVal
  | a : List String → FieldVal
deriving Repr, DecidableEq

/-- Parse a field value (string or string array). -/
def parseFieldVal (fuel : Nat) (l : List Char) : Option (FieldVal × List Char) :=
  match skipWs l with
  | '"' :: r => (parseStrBody fuel r).map (fun p => (FieldVal.s (String.mk p.1), p.2))
  | '[' :: _ => (parseStrArr fuel l).map (fun p => (FieldVal.a p.1, p.2))
  | _ => none

/-- Parse the members of a non-empty object of field values, positioned at
the first key; consumes the closing `}`. -/
def parseMembers : Nat → List Char → Option (List (String × FieldVal) × List Char)
  | 0, _ => none
  | fuel + 1, l =>
    match parseJString fuel l with
    | none => none
    | some (k, r1) =>
      match skipWs r1 with
      | ':' :: r2 =>
        match parseFieldVal fuel r2 with
        | none => none
        | some (v, r3) =>
          match skipWs r3 with
          | ',' :: r4 =>
            match parseMembers fuel r4 with
            | none => none
            | some (ms, r5) => some ((k, v) :: ms, r5)
          | '}' :: r4 => some ([(k, v)], r4)
          | _ => none
      | _ => none

/-- Extract a string field from parsed members (first occurrence of the key). -/
def fieldStr (ms : List (String × FieldVal)) (k : String) : Option String :=
  match ms.find? (fun kv => kv.1 == k) with
  | some (_, FieldVal.s s) => some s
  | _ => none

/-- Extract an array field from parsed members. -/
def fieldArr (ms : List (String × FieldVal)) (k : String) : Option (List String) :=
  match ms.find? (fun kv => kv.1 == k) with
  | some (_, FieldVal.a xs) => some xs
  | _ => none

/-- Decode an element record from its parsed fields. -/
def elemOfFields (ms : List (String × FieldVal)) : Option Elem :=
  match fieldStr ms "name", fieldStr ms "description", fieldArr ms "images", fieldArr ms "tags" with
  | some n, some d, some i, some t => some ⟨n, d, i, t⟩
  | _, _, _, _ => none

/-- Parse one element record (a JSON object of field values). -/
def parseElemObj (fuel : Nat) (l : List Char) : Option (Elem × List Char) :=
  match skipWs l with
  | '{' :: r =>
    match parseMembers fuel (skipWs r) with
    | none => none
    | some (ms, r2) =>
      match elemOfFields ms with
      | none => none
      | some e => some (e, r2)
  | _ => none

/-- Parse the members of a non-empty top-level object, positioned at the
first key; consumes the closing `}`. -/
def parseTopMembers : Nat → List Char → Option (Elements × List Char)
  | 0, _ => none
  | fuel + 1, l =>
    match parseJString fuel l with
    | none => none
    | some (k, r1) =>
      match skipWs r1 with
      | ':' :: r2 =>
        match parseElemObj fuel r2 with
        | none => none
        | some (e, r3) =>
          match skipWs r3 with
          | ',' :: r4 =>
            match parseTopMembers fuel r4 with
            | none => none
            | some (ms, r5) => some ((k, e) :: ms, r5)
          | '}' :: r4 => some ([(k, e)], r4)
          | _ => none
      | _ => none

/-- Parse a whole element file: the top-level JSON object, with nothing but
whitespace after it. -/
def parseElementsDoc (s : String) : Option Elements :=
  let l := s.toList
  match skipWs l with
  | '{' :: r =>
    match skipWs r with
    | '}' :: r2 => if skipWs r2 = [] then some [] else none
    | r2 =>
      match parseTopMembers (l.length + 1) r2 with
      | none => none
      | some (ms, r3) => if skipWs r3 = [] then some ms else none
  | _ => none

/-- `load_elements` (macro_agent.py:92-98): the empty mapping when the file
is absent, otherwise `json.load` of the file's content (failure to parse is
an exception in Python, `none` here). -/
def load_elements (file : Option String) : Option Elements :=
  match file with
  | none => some []
  | some s => parseElementsDoc s

/-! ### Fuel requirements of the readers on rendered input -/

/-- Fuel needed to read back a rendered string. -/
def strFuel (s : String) : Nat := s.toList.length + 1

/-- Fuel needed to read back a rendered string array. -/
def arrFuel (xs : List String) : Nat := xs.foldr (fun x a => 1 + strFuel x + a) 0

/-- Fuel needed to read back a rendered element record. -/
def elemFuel (e : Elem) : Nat :=
  4 + strFuel "name" + strFuel e.name + strFuel "description" + strFuel e.description +
    strFuel "images" + arrFuel e.images + strFuel "tags" + arrFuel e.tags

/-- Fuel needed to read back the rendered element file. -/
def topFuel (m : Elements) : Nat :=
  m.foldr (fun kv a => 1 + strFuel kv.1 + elemFuel kv.2 + a) 0

/-! ### Round-trip lemmas: whitespace -/

theorem skipWs_ws (c : Char) (l : List Char)
    (h : c = ' ' ∨ c = '\n' ∨ c = '\t' ∨ c = '\r') : skipWs (c :: l) = skipWs l := by
  simp only [skipWs, if_pos h]

theorem skipWs_not_ws (c : Char) (l : List Char)
    (h : ¬(c = ' ' ∨ c = '\n' ∨ c = '\t' ∨ c = '\r')) : skipWs (c :: l) = c :: l := by
  simp only [skipWs, if_neg h]

theorem skipWs_nSpaces (n : Nat) (l : List Char) : skipWs (nSpaces n ++ l) = skipWs l := by
  induction n with
  | zero => rfl
  | succ k ih =>
    rw [show nSpaces (k + 1) = ' ' :: nSpaces k from List.replicate_succ .. , List.cons_append,
      skipWs_ws _ _ (Or.inl rfl), ih]

theorem skipWs_skipWs (l : List Char) : skipWs (skipWs l) = skipWs l := by
  induction l with
  | nil => rfl
  | cons c cs ih =>
    by_cases h : c = ' ' ∨ c = '\n' ∨ c = '\t' ∨ c = '\r'
    · rw [skipWs_ws _ _ h, ih]
    · rw [skipWs_not_ws _ _ h, skipWs_not_ws _ _ h]

/-! ### Round-trip lemmas: string literals -/

theorem hexVal_hexDigitChar : ∀ d < 16, hexVal (hexDigitChar d) = some d := by decide

/-- One-step unfolding of `parseStrBody` on a cons cell. -/
theorem parseStrBody_succ_cons (fuel : Nat) (c : Char) (rest : List Char) :
    parseStrBody (fuel + 1) (c :: rest) =
      (if c = '"' then some ([], rest)
      else if c = '\\' then
        match rest with
        | [] => none
        | e :: rest2 =>
          if e = 'u' then
            match rest2 with
            | h1 :: h2 :: h3 :: h4 :: rest3 =>
              match hexVal h1, hexVal h2, hexVal h3, hexVal h4 with
              | some d1, some d2, some d3, some d4 =>
                let n := ((d1 * 16 + d2) * 16 + d3) * 16 + d4
                if h : n.isValidChar then
                  (parseStrBody fuel rest3).map (fun p => (Char.ofNatAux n h :: p.1, p.2))
                else none
              | _, _, _, _ => none
            | _ => none
          else
            match unescChar e with
            | none => none
            | some c2 => (parseStrBody fuel rest2).map (fun p => (c2 :: p.1, p.2))
      else (parseStrBody fuel rest).map (fun p => (c :: p.1, p.2))) := rfl

/-- Parsing the escape of one character from the front of the input decodes
that character and continues with one unit of fuel consumed. -/
theorem parseStrBody_escChar (c : Char) (l : List Char) (fuel : Nat) :
    parseStrBody (fuel + 1) (escChar c ++ l) =
      (parseStrBody fuel l).map (fun p => (c :: p.1, p.2)) := by
  by_cases h1 : c = '"'
  · subst h1; rfl
  by_cases h2 : c = '\\'
  · subst h2; rfl
  by_cases h3 : c = '\n'
  · subst h3; rfl
  by_cases h4 : c = '\r'
  · subst h4; rfl
  by_cases h5 : c = '\t'
  · subst h5; rfl
  by_cases h6 : c = '\x08'
  · subst h6; rfl
  by_cases h7 : c = '\x0c'
  · subst h7; rfl
  by_cases h8 : c.toNat < 0x20
  · have hd1 := hexVal_hexDigitChar (c.toNat / 16) (by omega)
    have hd2 := hexVal_hexDigitChar (c.toNat % 16) (by omega)
    simp only [escChar, if_neg h1, if_neg h2, if_neg h3, if_neg h4, if_neg h5, if_neg h6,
      if_neg h7, if_pos h8, List.cons_append, List.nil_append]
    rw [show parseStrBody (fuel + 1)
        ('\\' :: 'u' :: '0' :: '0' :: hexDigitChar (c.toNat / 16) ::
          hexDigitChar (c.toNat % 16) :: l) =
      (match hexVal '0', hexVal '0', hexVal (hexDigitChar (c.toNat / 16)),
          hexVal (hexDigitChar (c.toNat % 16)) with
        | some d1, some d2, some d3, some d4 =>
          let n := ((d1 * 16 + d2) * 16 + d3) * 16 + d4
          if h : n.isValidChar then
            (parseStrBody fuel l).map (fun p => (Char.ofNatAux n h :: p.1, p.2))
          else none
        | _, _, _, _ => none) from rfl]
    rw [show hexVal '0' = some 0 from rfl, hd1, hd2]
    simp only []
    have hn : ((((0 : Nat) * 16 + 0) * 16 + c.toNat / 16) * 16 + c.toNat % 16) = c.toNat := by
      omega
    rw [hn]
    have hv : (c.toNat).isValidChar := by
      left
      omega
    rw [dif_pos hv]
    have hc : Char.ofNatAux c.toNat hv = c := by
      have h0 := Char.ofNat_toNat c
      rw [Char.ofNat, dif_pos hv] at h0
      exact h0
    rw [hc]
  · simp only [escChar, if_neg h1, if_neg h2, if_neg h3, if_neg h4, if_neg h5, if_neg h6,
      if_neg h7, if_neg h8, List.cons_append, List.nil_append]
    rw [parseStrBody_succ_cons, if_neg h1, if_neg h2]

theorem parseStrBody_render (cs : List Char) (l : List Char) :
    ∀ fuel, cs.length + 1 ≤ fuel →
      parseStrBody fuel ((cs.map escChar).flatten ++ '"' :: l) = some (cs, l) := by
  induction cs with
  | nil =>
    intro fuel hf
    obtain ⟨f, rfl⟩ : ∃ f, fuel = f + 1 := ⟨fuel - 1, by omega⟩
    rfl
  | cons c cs ih =>
    intro fuel hf
    obtain ⟨f, rfl⟩ : ∃ f, fuel = f + 1 := ⟨fuel - 1, by omega⟩
    rw [List.map_cons, List.flatten_cons, List.append_assoc, parseStrBody_escChar,
      ih f (by simpa using Nat.lt_succ_iff.mp (by simpa [List.length_cons] using hf))]
    rfl

theorem stringMk_toList (s : String) : String.mk s.toList = s := rfl

theorem parseJString_render (s : String) (l : List Char) (fuel : Nat)
    (hf : strFuel s ≤ fuel) : parseJString fuel (renderStrChars s ++ l) = some (s, l) := by
  have hshape : renderStrChars s ++ l = '"' :: ((s.toList.map escChar).flatten ++ '"' :: l) := by
    simp [renderStrChars]
  rw [hshape]
  simp only [parseJString]
  rw [skipWs_not_ws _ _ (by decide)]
  simp only []
  rw [parseStrBody_render s.toList l fuel (by simpa [strFuel] using hf)]
  rfl

theorem parseJString_nSpaces (fuel n : Nat) (l : List Char) :
    parseJString fuel (nSpaces n ++ l) = parseJString fuel l := by
  unfold parseJString
  rw [skipWs_nSpaces]

theorem parseJString_newline (fuel : Nat) (l : List Char) :
    parseJString fuel ('\n' :: l) = parseJString fuel l := by
  unfold parseJString
  rw [skipWs_ws _ _ (by simp)]

theorem parseJString_skipWs (fuel : Nat) (l : List Char) :
    parseJString fuel (skipWs l) = parseJString fuel l := by
  unfold parseJString
  rw [skipWs_skipWs]

/-! ### Round-trip lemmas: arrays -/

theorem renderStr_shape (s : String) (r : List Char) :
    renderStrChars s ++ r = '"' :: ((s.toList.map escChar).flatten ++ '"' :: r) := by
  simp [renderStrChars]

theorem parseArrItems_nSpaces (fuel n : Nat) (l : List Char) :
    parseArrItems fuel (nSpaces n ++ l) = parseArrItems fuel l := by
  cases fuel with
  | zero => rfl
  | succ f => simp only [parseArrItems, parseJString_nSpaces]

theorem parseArrItems_newline (fuel : Nat) (l : List Char) :
    parseArrItems fuel ('\n' :: l) = parseArrItems fuel l := by
  cases fuel with
  | zero => rfl
  | succ f => simp only [parseArrItems, parseJString_newline]

theorem parseArrItems_render (xs : List String) (ind lvl : Nat) (l : List Char) :
    ∀ fuel, xs ≠ [] → arrFuel xs ≤ fuel →
      parseArrItems fuel
        (joinSep [',', '\n'] (xs.map (fun x => nSpaces ind ++ renderStrChars x)) ++
          '\n' :: (nSpaces lvl ++ ']' :: l)) = some (xs, l) := by
  induction xs with
  | nil => intro fuel hne _; exact absurd rfl hne
  | cons x xs ih =>
    intro fuel _ hf
    have hf' : 1 + strFuel x + arrFuel xs ≤ fuel := by
      simpa only [arrFuel, List.foldr_cons] using hf
    obtain ⟨f, rfl⟩ : ∃ f, fuel = f + 1 := ⟨fuel - 1, by omega⟩
    cases xs with
    | nil =>
      simp only [List.map_cons, List.map_nil, joinSep, List.append_assoc]
      simp only [parseArrItems]
      rw [parseJString_nSpaces, parseJString_render x _ f (by omega)]
      simp only []
      rw [skipWs_ws _ _ (by simp), skipWs_nSpaces, skipWs_not_ws _ _ (by decide)]
      simp only []
    | cons y ys =>
      simp only [List.map_cons, joinSep, List.append_assoc, List.cons_append, List.nil_append]
      simp only [parseArrItems]
      rw [parseJString_nSpaces, parseJString_render x _ f (by omega)]
      simp only []
      rw [skipWs_not_ws _ _ (by decide)]
      simp only []
      rw [parseArrItems_newline]
      have := ih f (by simp) (by simp only [arrFuel, List.foldr_cons] at hf' ⊢; omega)
      simp only [List.map_cons, joinSep, List.append_assoc, List.cons_append,
        List.nil_append] at this
      rw [this]

theorem parseArrItems_skipWs (fuel : Nat) (l : List Char) :
    parseArrItems fuel (skipWs l) = parseArrItems fuel l := by
  cases fuel with
  | zero => rfl
  | succ f => simp only [parseArrItems, parseJString_skipWs]

/-- The join of a non-empty item list, followed by anything, starts with its
first item. -/
theorem joinSep_cons_exists (sep it : List Char) (its : List (List Char)) (r : List Char) :
    ∃ q, joinSep sep (it :: its) ++ r = it ++ q := by
  cases its with
  | nil => exact ⟨r, rfl⟩
  | cons j js => exact ⟨sep ++ joinSep sep (j :: js) ++ r, by simp [joinSep]⟩

theorem parseStrArr_render (xs : List String) (k lvl : Nat) (l : List Char) (fuel : Nat)
    (hf : arrFuel xs ≤ fuel) :
    parseStrArr fuel (nSpaces k ++ (renderArrChars lvl xs ++ l)) = some (xs, l) := by
  cases xs with
  | nil =>
    simp only [renderArrChars, List.map_nil, renderBlock]
    simp only [parseStrArr]
    rw [skipWs_nSpaces, List.cons_append, List.singleton_append,
      skipWs_not_ws _ _ (by decide)]
    simp only []
    rw [skipWs_not_ws _ _ (by decide)]
    simp only []
  | cons x xs =>
    have hblock : renderArrChars lvl (x :: xs) ++ l =
        '[' :: '\n' ::
          (joinSep [',', '\n'] ((nSpaces (lvl + 2) ++ renderStrChars x) ::
              (xs.map fun it => nSpaces (lvl + 2) ++ renderStrChars it)) ++
            '\n' :: (nSpaces lvl ++ ']' :: l)) := by
      simp [renderArrChars, renderBlock, List.map_map, Function.comp_def]
    simp only [parseStrArr]
    rw [skipWs_nSpaces, hblock, skipWs_not_ws _ _ (by decide)]
    simp only []
    obtain ⟨q, hq⟩ := joinSep_cons_exists [',', '\n'] (nSpaces (lvl + 2) ++ renderStrChars x)
      (xs.map fun it => nSpaces (lvl + 2) ++ renderStrChars it)
      ('\n' :: (nSpaces lvl ++ ']' :: l))
    have hsk : skipWs ('\n' ::
        (joinSep [',', '\n'] ((nSpaces (lvl + 2) ++ renderStrChars x) ::
            (xs.map fun it => nSpaces (lvl + 2) ++ renderStrChars it)) ++
          '\n' :: (nSpaces lvl ++ ']' :: l))) =
        '"' :: ((x.toList.map escChar).flatten ++ '"' :: q) := by
      rw [skipWs_ws _ _ (by simp), hq, List.append_assoc, skipWs_nSpaces, renderStr_shape,
        skipWs_not_ws _ _ (by decide)]
    rw [hsk]
    change parseArrItems fuel ('"' :: ((x.toList.map escChar).flatten ++ '"' :: q)) =
      some (x :: xs, l)
    rw [← hsk, parseArrItems_skipWs, parseArrItems_newline]
    have := parseArrItems_render (x :: xs) (lvl + 2) lvl l fuel (by simp) hf
    rw [List.map_cons] at this
    exact this

/-! ### Round-trip lemmas: field values and element records -/

theorem parseFieldVal_renderStr (s : String) (k : Nat) (l : List Char) (fuel : Nat)
    (hf : strFuel s ≤ fuel) :
    parseFieldVal fuel (nSpaces k ++ (renderStrChars s ++ l)) = some (FieldVal.s s, l) := by
  simp only [parseFieldVal]
  rw [skipWs_nSpaces, renderStr_shape, skipWs_not_ws _ _ (by decide)]
  simp only []
  rw [parseStrBody_render s.toList l fuel (by simpa [strFuel] using hf)]
  rfl

theorem parseFieldVal_renderArr (xs : List String) (k lvl : Nat) (l : List Char) (fuel : Nat)
    (hf : arrFuel xs ≤ fuel) :
    parseFieldVal fuel (nSpaces k ++ (renderArrChars lvl xs ++ l)) = some (FieldVal.a xs, l) := by
  obtain ⟨R, hR⟩ : ∃ R, skipWs (nSpaces k ++ (renderArrChars lvl xs ++ l)) = '[' :: R := by
    cases xs with
    | nil =>
      refine ⟨']' :: l, ?_⟩
      simp only [renderArrChars, List.map_nil, renderBlock]
      rw [skipWs_nSpaces, List.cons_append, List.singleton_append,
        skipWs_not_ws _ _ (by decide)]
    | cons x xs =>
      refine ⟨'\n' ::
        (joinSep [',', '\n'] (((x :: xs).map renderStrChars).map
            (fun it => nSpaces (lvl + 2) ++ it)) ++
          '\n' :: (nSpaces lvl ++ ']' :: l)), ?_⟩
      rw [skipWs_nSpaces,
        show renderArrChars lvl (x :: xs) ++ l =
          '[' :: ('\n' ::
            (joinSep [',', '\n'] (((x :: xs).map renderStrChars).map
                (fun it => nSpaces (lvl + 2) ++ it)) ++
              '\n' :: (nSpaces lvl ++ ']' :: l))) from by
          simp [renderArrChars, renderBlock],
        skipWs_not_ws _ _ (by decide)]
  simp only [parseFieldVal]
  rw [hR]
  change (parseStrArr fuel (nSpaces k ++ (renderArrChars lvl xs ++ l))).map
      (fun p => (FieldVal.a p.1, p.2)) = some (FieldVal.a xs, l)
  rw [parseStrArr_render xs k lvl l fuel hf]
  rfl

theorem parseMembers_newline (fuel : Nat) (l : List Char) :
    parseMembers fuel ('\n' :: l) = parseMembers fuel l := by
  cases fuel with
  | zero => rfl
  | succ f => simp only [parseMembers, parseJString_newline]

theorem parseMembers_skipWs (fuel : Nat) (l : List Char) :
    parseMembers fuel (skipWs l) = parseMembers fuel l := by
  cases fuel with
  | zero => rfl
  | succ f => simp only [parseMembers, parseJString_skipWs]

theorem space_as_nSpaces (z : List Char) : (' ' :: z) = nSpaces 1 ++ z := rfl

theorem parseMembers_render_elem (e : Elem) (ind alvl lvl : Nat) (l : List Char) (fuel : Nat)
    (hf : elemFuel e ≤ fuel) :
    parseMembers fuel
      (joinSep [',', '\n']
        [nSpaces ind ++ (renderStrChars "name" ++ ':' :: ' ' :: renderStrChars e.name),
         nSpaces ind ++ (renderStrChars "description" ++ ':' :: ' ' :: renderStrChars e.description),
         nSpaces ind ++ (renderStrChars "images" ++ ':' :: ' ' :: renderArrChars alvl e.images),
         nSpaces ind ++ (renderStrChars "tags" ++ ':' :: ' ' :: renderArrChars alvl e.tags)] ++
        '\n' :: (nSpaces lvl ++ '}' :: l)) =
      some ([("name", FieldVal.s e.name), ("description", FieldVal.s e.description),
             ("images", FieldVal.a e.images), ("tags", FieldVal.a e.tags)], l) := by
  have hek : elemFuel e = 4 + 5 + strFuel e.name + 12 + strFuel e.description +
      7 + arrFuel e.images + 5 + arrFuel e.tags := by
    simp only [elemFuel, show strFuel "name" = 5 from rfl,
      show strFuel "description" = 12 from rfl, show strFuel "images" = 7 from rfl,
      show strFuel "tags" = 5 from rfl]
  rw [hek] at hf
  simp only [joinSep, List.append_assoc, List.cons_append, List.nil_append]
  -- member 1: "name"
  obtain ⟨f1, rfl⟩ : ∃ f, fuel = f + 1 := ⟨fuel - 1, by omega⟩
  simp only [parseMembers]
  rw [parseJString_nSpaces,
    parseJString_render "name" _ _ (by rw [show strFuel "name" = 5 from rfl]; omega)]
  simp only []
  rw [skipWs_not_ws _ _ (by decide)]
  simp only []
  rw [space_as_nSpaces, parseFieldVal_renderStr e.name 1 _ _ (by omega)]
  simp only []
  rw [skipWs_not_ws _ _ (by decide)]
  simp only []
  rw [parseMembers_newline]
  -- member 2: "description"
  obtain ⟨f2, rfl⟩ : ∃ f, f1 = f + 1 := ⟨f1 - 1, by omega⟩
  simp only [parseMembers]
  rw [parseJString_nSpaces,
    parseJString_render "description" _ _ (by rw [show strFuel "description" = 12 from rfl]; omega)]
  simp only []
  rw [skipWs_not_ws _ _ (by decide)]
  simp only []
  rw [space_as_nSpaces, parseFieldVal_renderStr e.description 1 _ _ (by omega)]
  simp only []
  rw [skipWs_not_ws _ _ (by decide)]
  simp only []
  rw [parseMembers_newline]
  -- member 3: "images"
  obtain ⟨f3, rfl⟩ : ∃ f, f2 = f + 1 := ⟨f2 - 1, by omega⟩
  simp only [parseMembers]
  rw [parseJString_nSpaces,
    parseJString_render "images" _ _ (by rw [show strFuel "images" = 7 from rfl]; omega)]
  simp only []
  rw [skipWs_not_ws _ _ (by decide)]
  simp only []
  rw [space_as_nSpaces, parseFieldVal_renderArr e.images 1 alvl _ _ (by omega)]
  simp only []
  rw [skipWs_not_ws _ _ (by decide)]
  simp only []
  rw [parseMembers_newline]
  -- member 4: "tags"
  obtain ⟨f4, rfl⟩ : ∃ f, f3 = f + 1 := ⟨f3 - 1, by omega⟩
  simp only [parseMembers]
  rw [parseJString_nSpaces,
    parseJString_render "tags" _ _ (by rw [show strFuel "tags" = 5 from rfl]; omega)]
  simp only []
  rw [skipWs_not_ws _ _ (by decide)]
  simp only []
  rw [space_as_nSpaces, parseFieldVal_renderArr e.tags 1 alvl _ _ (by omega)]
  simp only []
  rw [skipWs_ws _ _ (by simp), skipWs_nSpaces, skipWs_not_ws _ _ (by decide)]
  simp only []

theorem parseElemObj_render (e : Elem) (k lvl : Nat) (l : List Char) (fuel : Nat)
    (hf : elemFuel e ≤ fuel) :
    parseElemObj fuel (nSpaces k ++ (renderElemChars lvl e ++ l)) = some (e, l) := by
  have hblock : renderElemChars lvl e ++ l =
      '{' :: ('\n' ::
        (joinSep [',', '\n']
          [nSpaces (lvl + 2) ++ (renderStrChars "name" ++ ':' :: ' ' :: renderStrChars e.name),
           nSpaces (lvl + 2) ++
             (renderStrChars "description" ++ ':' :: ' ' :: renderStrChars e.description),
           nSpaces (lvl + 2) ++
             (renderStrChars "images" ++ ':' :: ' ' :: renderArrChars (lvl + 2) e.images),
           nSpaces (lvl + 2) ++
             (renderStrChars "tags" ++ ':' :: ' ' :: renderArrChars (lvl + 2) e.tags)] ++
          '\n' :: (nSpaces lvl ++ '}' :: l))) := by
    simp [renderElemChars, renderBlock, joinSep]
  simp only [parseElemObj]
  rw [skipWs_nSpaces, hblock, skipWs_not_ws _ _ (by decide)]
  simp only []
  rw [parseMembers_skipWs, parseMembers_newline,
    parseMembers_render_elem e (lvl + 2) (lvl + 2) lvl l fuel hf]
  simp only []
  rw [show elemOfFields
      [("name", FieldVal.s e.name), ("description", FieldVal.s e.description),
       ("images", FieldVal.a e.images), ("tags", FieldVal.a e.tags)] =
    some ⟨e.name, e.description, e.images, e.tags⟩ from rfl]

theorem parseTopMembers_newline (fuel : Nat) (l : List Char) :
    parseTopMembers fuel ('\n' :: l) = parseTopMembers fuel l := by
  cases fuel with
  | zero => rfl
  | succ f => simp only [parseTopMembers, parseJString_newline]

theorem parseTopMembers_skipWs (fuel : Nat) (l : List Char) :
    parseTopMembers fuel (skipWs l) = parseTopMembers fuel l := by
  cases fuel with
  | zero => rfl
  | succ f => simp only [parseTopMembers, parseJString_skipWs]

theorem parseTopMembers_render (m : Elements) (l : List Char) :
    ∀ fuel, m ≠ [] → topFuel m ≤ fuel →
      parseTopMembers fuel
        (joinSep [',', '\n']
            (m.map (fun kv =>
              nSpaces 2 ++ (renderStrChars kv.1 ++ ':' :: ' ' :: renderElemChars 2 kv.2))) ++
          '\n' :: (nSpaces 0 ++ '}' :: l)) = some (m, l) := by
  induction m with
  | nil => intro fuel hne _; exact absurd rfl hne
  | cons kv rest ih =>
    intro fuel _ hf
    have hf' : 1 + strFuel kv.1 + elemFuel kv.2 + topFuel rest ≤ fuel := by
      simpa only [topFuel, List.foldr_cons] using hf
    obtain ⟨f, rfl⟩ : ∃ f, fuel = f + 1 := ⟨fuel - 1, by omega⟩
    cases rest with
    | nil =>
      simp only [List.map_cons, List.map_nil, joinSep, List.append_assoc, List.cons_append,
        List.nil_append]
      simp only [parseTopMembers]
      rw [parseJString_nSpaces, parseJString_render kv.1 _ f (by omega)]
      simp only []
      rw [skipWs_not_ws _ _ (by decide)]
      simp only []
      rw [space_as_nSpaces, parseElemObj_render kv.2 1 2 _ f (by omega)]
      simp only []
      rw [skipWs_ws _ _ (by simp), skipWs_nSpaces, skipWs_not_ws _ _ (by decide)]
      simp only []
    | cons kv2 rest2 =>
      simp only [List.map_cons, joinSep, List.append_assoc, List.cons_append, List.nil_append]
      simp only [parseTopMembers]
      rw [parseJString_nSpaces, parseJString_render kv.1 _ f (by omega)]
      simp only []
      rw [skipWs_not_ws _ _ (by decide)]
      simp only []
      rw [space_as_nSpaces, parseElemObj_render kv.2 1 2 _ f (by omega)]
      simp only []
      rw [skipWs_not_ws _ _ (by decide)]
      simp only []
      rw [parseTopMembers_newline]
      have := ih f (by simp) (by simp only [topFuel, List.foldr_cons] at hf' ⊢; omega)
      simp only [List.map_cons, joinSep, List.append_assoc, List.cons_append,
        List.nil_append] at this
      rw [this]

/-! ### The fuel requirement is covered by the rendered length -/

theorem escChar_length_pos (c : Char) : 1 ≤ (escChar c).length := by
  unfold escChar
  split_ifs <;> simp

theorem flatten_escChar_ge (cs : List Char) :
    cs.length ≤ (cs.map escChar).flatten.length := by
  induction cs with
  | nil => simp
  | cons c cs ih =>
    simp only [List.map_cons, List.flatten_cons, List.length_append, List.length_cons]
    have := escChar_length_pos c
    omega

theorem strFuel_le (s : String) : strFuel s ≤ (renderStrChars s).length := by
  have := flatten_escChar_ge s.toList
  simp only [strFuel, renderStrChars, List.length_cons, List.length_append,
    List.length_singleton]
  omega

theorem arrFuel_le_join (xs : List String) (ind : Nat) :
    arrFuel xs ≤
      (joinSep [',', '\n'] (xs.map (fun x => nSpaces ind ++ renderStrChars x))).length + 1 := by
  induction xs with
  | nil => simp [arrFuel, joinSep]
  | cons x xs ih =>
    have hx := strFuel_le x
    cases xs with
    | nil =>
      simp only [arrFuel, List.foldr_cons, List.foldr_nil, List.map_cons, List.map_nil,
        joinSep, List.length_append, nSpaces, List.length_replicate]
      omega
    | cons y ys =>
      simp only [arrFuel, List.foldr_cons] at ih ⊢
      simp only [List.map_cons, joinSep, List.length_append, List.length_cons,
        nSpaces, List.length_replicate] at ih ⊢
      omega

theorem nSpaces_length (n : Nat) : (nSpaces n).length = n := by simp [nSpaces]

theorem arrFuel_le (xs : List String) (lvl : Nat) :
    arrFuel xs ≤ (renderArrChars lvl xs).length := by
  cases xs with
  | nil => simp [arrFuel, renderArrChars, renderBlock]
  | cons x xs =>
    have hj := arrFuel_le_join (x :: xs) (lvl + 2)
    rw [List.map_cons] at hj
    have hlen : (renderArrChars lvl (x :: xs)).length =
        (joinSep [',', '\n']
          ((nSpaces (lvl + 2) ++ renderStrChars x) ::
            xs.map (fun x => nSpaces (lvl + 2) ++ renderStrChars x))).length + lvl + 4 := by
      simp [renderArrChars, renderBlock, Function.comp_def, nSpaces_length]
      omega
    omega

theorem elemFuel_le (e : Elem) (lvl : Nat) :
    elemFuel e ≤ (renderElemChars lvl e).length := by
  have h1 := strFuel_le e.name
  have h2 := strFuel_le e.description
  have h3 := arrFuel_le e.images (lvl + 2)
  have h4 := arrFuel_le e.tags (lvl + 2)
  have hek : elemFuel e = 33 + strFuel e.name + strFuel e.description +
      arrFuel e.images + arrFuel e.tags := by
    simp only [elemFuel, show strFuel "name" = 5 from rfl,
      show strFuel "description" = 12 from rfl, show strFuel "images" = 7 from rfl,
      show strFuel "tags" = 5 from rfl]
    omega
  rw [hek]
  simp [renderElemChars, renderBlock, joinSep, nSpaces_length,
    show (renderStrChars "name").length = 6 from rfl,
    show (renderStrChars "description").length = 13 from rfl,
    show (renderStrChars "images").length = 8 from rfl,
    show (renderStrChars "tags").length = 6 from rfl]
  omega

theorem topFuel_le_join (m : Elements) :
    topFuel m ≤ (joinSep [',', '\n']
      (m.map (fun kv =>
        nSpaces 2 ++ (renderStrChars kv.1 ++ ':' :: ' ' :: renderElemChars 2 kv.2)))).length + 1 := by
  induction m with
  | nil => simp [topFuel, joinSep]
  | cons kv rest ih =>
    have h1 := strFuel_le kv.1
    have h2 := elemFuel_le kv.2 2
    cases rest with
    | nil =>
      simp only [topFuel, List.foldr_cons, List.foldr_nil, List.map_cons, List.map_nil,
        joinSep, List.length_append, List.length_cons, nSpaces_length]
      omega
    | cons kv2 rest2 =>
      simp only [topFuel, List.foldr_cons] at ih ⊢
      simp only [List.map_cons, joinSep, List.length_append, List.length_cons,
        nSpaces_length] at ih ⊢
      omega

theorem topFuel_le (m : Elements) : topFuel m ≤ (renderElementsChars m).length + 1 := by
  cases m with
  | nil => simp [topFuel, renderElementsChars, renderBlock]
  | cons kv rest =>
    have hj := topFuel_le_join (kv :: rest)
    rw [List.map_cons] at hj
    have hlen : (renderElementsChars (kv :: rest)).length =
        (joinSep [',', '\n']
          ((nSpaces 2 ++ (renderStrChars kv.1 ++ ':' :: ' ' :: renderElemChars 2 kv.2)) ::
            rest.map (fun kv =>
              nSpaces 2 ++ (renderStrChars kv.1 ++ ':' :: ' ' :: renderElemChars 2 kv.2)))).length
          + 4 := by
      simp [renderElementsChars, renderBlock, nSpaces_length, Function.comp_def]
    omega

/-! ### The save/load round trip -/

theorem parseElementsDoc_render (m : Elements) :
    parseElementsDoc (save_elements m) = some m := by
  cases m with
  | nil => rfl
  | cons kv rest =>
    have htl : (save_elements (kv :: rest)).toList = renderElementsChars (kv :: rest) := rfl
    have hblock : renderElementsChars (kv :: rest) =
        '{' :: ('\n' ::
          (joinSep [',', '\n']
            ((nSpaces 2 ++ (renderStrChars kv.1 ++ ':' :: ' ' :: renderElemChars 2 kv.2)) ::
              rest.map (fun kv =>
                nSpaces 2 ++ (renderStrChars kv.1 ++ ':' :: ' ' :: renderElemChars 2 kv.2))) ++
            '\n' :: (nSpaces 0 ++ '}' :: []))) := by
      simp [renderElementsChars, renderBlock, joinSep, Function.comp_def]
    simp only [parseElementsDoc]
    rw [htl]
    have hskA : skipWs (renderElementsChars (kv :: rest)) =
        '{' :: ('\n' ::
          (joinSep [',', '\n']
            ((nSpaces 2 ++ (renderStrChars kv.1 ++ ':' :: ' ' :: renderElemChars 2 kv.2)) ::
              rest.map (fun kv =>
                nSpaces 2 ++ (renderStrChars kv.1 ++ ':' :: ' ' :: renderElemChars 2 kv.2))) ++
            '\n' :: (nSpaces 0 ++ '}' :: []))) := by
      rw [hblock]
      exact skipWs_not_ws _ _ (by decide)
    rw [hskA]
    simp only []
    obtain ⟨q, hq⟩ := joinSep_cons_exists [',', '\n']
      (nSpaces 2 ++ (renderStrChars kv.1 ++ ':' :: ' ' :: renderElemChars 2 kv.2))
      (rest.map (fun kv =>
        nSpaces 2 ++ (renderStrChars kv.1 ++ ':' :: ' ' :: renderElemChars 2 kv.2)))
      ('\n' :: (nSpaces 0 ++ '}' :: []))
    have hsk : skipWs ('\n' ::
        (joinSep [',', '\n']
          ((nSpaces 2 ++ (renderStrChars kv.1 ++ ':' :: ' ' :: renderElemChars 2 kv.2)) ::
            rest.map (fun kv =>
              nSpaces 2 ++ (renderStrChars kv.1 ++ ':' :: ' ' :: renderElemChars 2 kv.2))) ++
          '\n' :: (nSpaces 0 ++ '}' :: []))) =
        '"' :: ((kv.1.toList.map escChar).flatten ++ '"' ::
          (':' :: ' ' :: renderElemChars 2 kv.2 ++ q)) := by
      rw [skipWs_ws _ _ (by simp), hq, List.append_assoc, skipWs_nSpaces, List.append_assoc,
        renderStr_shape, skipWs_not_ws _ _ (by decide)]
    rw [hsk]
    change (match parseTopMembers ((renderElementsChars (kv :: rest)).length + 1)
        ('"' :: ((kv.1.toList.map escChar).flatten ++ '"' ::
          (':' :: ' ' :: renderElemChars 2 kv.2 ++ q))) with
      | none => none
      | some (ms, r3) => if skipWs r3 = [] then some ms else none) = some (kv :: rest)
    rw [← hsk, parseTopMembers_skipWs, parseTopMembers_newline]
    have hrender := parseTopMembers_render (kv :: rest) []
      ((renderElementsChars (kv :: rest)).length + 1) (by simp)
      (topFuel_le (kv :: rest))
    rw [List.map_cons] at hrender
    rw [hrender]
    rfl

/-- C9: saving any well-formed element mapping with `save_elements` and
loading it back with `load_elements` returns the identical mapping (the
JSON text written by `json.dump` parses back to a structurally equal
object). -/
theorem claim_C9_save_load_roundtrip (m : Elements) :
    load_elements (some (save_elements m)) = some m := by
  simp only [load_elements]
  exact parseElementsDoc_render m

/-! ## Screen matcher (`find_element_on_screen`, macro_agent.py:174-319)

The imaging stack is modelled by an environment: which libraries import, the
capture directory's `.png` listing, and for each template image whether
`cv2.imread` loads it (with its height/width) and the template-match result
grid (`cv2.matchTemplate`) as a list of `(x, y, score)` entries in row-major
scan order — `np.where` enumerates qualifying positions in that order.
Scores are rationals standing for the float correlation scores. -/

/-- Python `str.split(sep)` for a single-character separator (keeps empty
segments, like Python). -/
def splitCharAux (sep : Char) : List Char → List Char → List String
  | [], acc => [String.mk acc.reverse]
  | c :: cs, acc =>
    if c = sep then String.mk acc.reverse :: splitCharAux sep cs []
    else splitCharAux sep cs (c :: acc)

/-- Python `s.split(sep)` (single-character separator). -/
def pySplitChar (sep : Char) (s : String) : List String :=
  splitCharAux sep s.toList []

/-- `listIsSuffixOf needle hay`: `needle` is a suffix of `hay`. -/
def listIsSuffixOf (needle hay : List Char) : Bool :=
  listIsPrefixOf needle.reverse hay.reverse

/-- Does `f` match the glob pattern `pre*suf` (a single `*` between a fixed
head and tail)? -/
def starMatch (pre suf f : String) : Bool :=
  listIsPrefixOf pre.toList f.toList && listIsSuffixOf suf.toList f.toList &&
    decide (pre.toList.length + suf.toList.length ≤ f.toList.length)

/-- A glob pattern as used by `find_element_on_screen`: either a literal
filename or `head*.png`-style with one `*`. -/
inductive GlobPat where
  | exact : String → GlobPat
  | star : String → String → GlobPat
deriving Repr, DecidableEq

/-- `glob.glob` over the capture directory: a literal pattern yields the file
when it exists; a starred pattern yields the matching files in directory
listing order. -/
def runGlob (captureFiles : List String) : GlobPat → List String
  | GlobPat.exact b => if captureFiles.contains b then [b] else []
  | GlobPat.star pre suf => captureFiles.filter (fun f => starMatch pre suf f)

/-- `list(dict.fromkeys(xs))`: deduplicate keeping the first occurrence. -/
def dedupFirstAux : List String → List String → List String
  | [], _ => []
  | x :: xs, seen =>
    if seen.contains x then dedupFirstAux xs seen
    else x :: dedupFirstAux xs (x :: seen)

/-- `list(dict.fromkeys(xs))`. -/
def dedupFirst (l : List String) : List String := dedupFirstAux l []

/-- One entry of a `cv2.matchTemplate` result grid: position and score. -/
structure MatchEntry where
  x : Nat
  y : Nat
  score : ℚ
deriving Repr, DecidableEq

/-- One entry of the `all_matches` diagnostic list. -/
structure AMatch where
  x : Nat
  y : Nat
  score : ℚ
  image : String
deriving Repr, DecidableEq

/-- The `info` dictionary returned by `find_element_on_screen`. -/
structure MatchInfo where
  matches_found : Nat
  best_score : ℚ
  images_tested : Nat
  all_matches : List AMatch
  element_config : Option String
deriving Repr, DecidableEq

/-- The imaging environment of one `find_element_on_screen` call. -/
structure ScreenEnv where
  hasPyautogui : Bool
  hasCv2 : Bool
  screenshotOk : Bool
  elements : Elements
  captureFiles : List String
  imread : String → Option (Nat × Nat)
  matchResult : String → List MatchEntry

/-- The candidate reference images of one lookup (macro_agent.py:212-245):
the resolved element's recorded images that exist on disk, else the
filename-pattern fallback (exact, wildcard, underscored, and all-words
matches), deduplicated. -/
def candidateImages (env : ScreenEnv) (name : String) : List String :=
  let name_normalized := pyLower (pyReplaceChar ' ' '_' name)
  let element := get_element env.elements name
  let image_files0 :=
    match element with
    | some elem => elem.images.filter (fun img => env.captureFiles.contains img)
    | none => []
  if image_files0.isEmpty then
    let patterns : List GlobPat :=
      [GlobPat.exact (name_normalized ++ ".png"),
       GlobPat.star (name_normalized ++ "_") ".png",
       GlobPat.exact (pyReplaceChar ' ' '_' name ++ ".png"),
       GlobPat.star (pyReplaceChar ' ' '_' name ++ "_") ".png"]
    let words := pySplitChar '_' name_normalized
    let patterns :=
      if 1 < words.length then
        patterns ++ ((env.captureFiles.filter (fun f => starMatch "" ".png" f)).filter
          (fun f => words.all (fun w => strIn w (pyLower f)))).map GlobPat.exact
      else patterns
    dedupFirst ((patterns.map (runGlob env.captureFiles)).flatten)
  else image_files0

/-- The center-coordinate/score record produced for one qualifying location
of one template image. -/
def toAMatch (b : String) (h w : Nat) (e : MatchEntry) : AMatch :=
  ⟨e.x + w / 2, e.y + h / 2, e.score, b⟩

/-- State of the image-scanning loop (macro_agent.py:259-301): the appended
`all_matches`, the accumulated `matches_found`, and the best match so far. -/
structure ScanState where
  allMatches : List AMatch
  matchesFound : Nat
  best : Option (Nat × Nat)
  bestConf : ℚ
deriving Repr, DecidableEq

/-- Process one qualifying location: record it in `all_matches` and take it
as the new best when its score strictly exceeds the best so far. -/
def stepEntry (b : String) (h w : Nat) (s : ScanState) (e : MatchEntry) : ScanState :=
  let cx := e.x + w / 2
  let cy := e.y + h / 2
  let s' := { s with allMatches := s.allMatches ++ [⟨cx, cy, e.score, b⟩] }
  if s'.bestConf < e.score then { s' with best := some (cx, cy), bestConf := e.score } else s'

/-- Process one candidate image: skip it if it does not load, else count and
fold over every location scoring at or above the threshold (`np.where
(result >= confidence)` in row-major order). -/
def scanImage (env : ScreenEnv) (confidence : ℚ) (s : ScanState) (b : String) : ScanState :=
  match env.imread b with
  | none => s
  | some (h, w) =>
    let qual := (env.matchResult b).filter (fun e => confidence ≤ e.score)
    let s' := { s with matchesFound := s.matchesFound + qual.length }
    qual.foldl (stepEntry b h w) s'

/-- Stable insertion keeping the list sorted by descending score (the
element goes before the first strictly lower score, after equal ones seen
later in `sortDesc`'s right fold, which makes the sort stable like
Python's). -/
def insertDesc (m : AMatch) : List AMatch → List AMatch
  | [] => [m]
  | a :: as => if m.score < a.score then a :: insertDesc m as else m :: a :: as

/-- `info["all_matches"].sort(key=score, reverse=True)`: stable descending
sort. -/
def sortDesc : List AMatch → List AMatch
  | [] => []
  | m :: ms => insertDesc m (sortDesc ms)

/-- `find_element_on_screen` (macro_agent.py:174-319). -/
def find_element_on_screen (env : ScreenEnv) (name : String) (confidence : ℚ) :
    Option (Nat × Nat) × String × MatchInfo :=
  let info0 : MatchInfo := ⟨0, 0, 0, [], none⟩
  if !env.hasPyautogui then (none, "no_pyautogui", info0)
  else if !env.hasCv2 then (none, "no_cv2", info0)
  else
    let element := get_element env.elements name
    let info1 : MatchInfo :=
      match element with
      | some elem => { info0 with element_config := some elem.name }
      | none => info0
    let image_files := candidateImages env name
    let info2 := { info1 with images_tested := image_files.length }
    if !env.screenshotOk then (none, "screenshot_error", info2)
    else
      let s := image_files.foldl (scanImage env confidence) ⟨[], 0, none, 0⟩
      let info3 := { info2 with
        matches_found := s.matchesFound
        all_matches := sortDesc s.allMatches
        best_score := s.bestConf }
      match s.best with
      | some c => (some c, "image", info3)
      | none => (none, "not_found", info3)

/-- All qualifying center/score records of one candidate image, in scan
order. -/
def imageQual (env : ScreenEnv) (confidence : ℚ) (b : String) : List AMatch :=
  match env.imread b with
  | none => []
  | some (h, w) =>
    ((env.matchResult b).filter (fun e => confidence ≤ e.score)).map (toAMatch b h w)

/-- All qualifying template-match records across the candidate images, in
encounter order. -/
def collectMatches (env : ScreenEnv) (confidence : ℚ) (bs : List String) : List AMatch :=
  (bs.map (imageQual env confidence)).flatten

/-- Spec-side: "the single highest-scoring location, ties broken by the
first highest score encountered". -/
def firstHighest : List AMatch → Option AMatch
  | [] => none
  | m :: ms =>
    match firstHighest ms with
    | none => some m
    | some m' => if m.score < m'.score then some m' else some m

/-! ### Characterisation of the scanning loop -/

/-- The best-match accumulator of the loop, run over a flat list of records. -/
def scanBestPair (l : List AMatch) (p : Option (Nat × Nat) × ℚ) : Option (Nat × Nat) × ℚ :=
  l.foldl (fun p m => if p.2 < m.score then (some (m.x, m.y), m.score) else p) p

theorem foldl_stepEntry (b : String) (h w : Nat) :
    ∀ (es : List MatchEntry) (s : ScanState),
      es.foldl (stepEntry b h w) s =
        ⟨s.allMatches ++ es.map (toAMatch b h w), s.matchesFound,
          (scanBestPair (es.map (toAMatch b h w)) (s.best, s.bestConf)).1,
          (scanBestPair (es.map (toAMatch b h w)) (s.best, s.bestConf)).2⟩ := by
  intro es
  induction es with
  | nil => intro s; cases s; simp [scanBestPair]
  | cons e es ih =>
    intro s
    rw [List.foldl_cons]
    have hstep : stepEntry b h w s e =
        ⟨s.allMatches ++ [toAMatch b h w e], s.matchesFound,
          if s.bestConf < e.score then some (e.x + w / 2, e.y + h / 2) else s.best,
          if s.bestConf < e.score then e.score else s.bestConf⟩ := by
      simp only [stepEntry]
      by_cases hlt : s.bestConf < e.score
      · rw [if_pos hlt, if_pos hlt, if_pos hlt]
        rfl
      · rw [if_neg hlt, if_neg hlt, if_neg hlt]
        rfl
    rw [hstep, ih]
    have hpair : scanBestPair ((e :: es).map (toAMatch b h w)) (s.best, s.bestConf) =
        scanBestPair (es.map (toAMatch b h w))
          (if s.bestConf < e.score then some (e.x + w / 2, e.y + h / 2) else s.best,
           if s.bestConf < e.score then e.score else s.bestConf) := by
      simp only [List.map_cons, scanBestPair, List.foldl_cons, toAMatch]
      by_cases hlt : s.bestConf < e.score
      · rw [if_pos hlt, if_pos hlt, if_pos hlt]
      · rw [if_neg hlt, if_neg hlt, if_neg hlt]
    rw [hpair]
    simp [List.append_assoc]

theorem scanImage_spec (env : ScreenEnv) (conf : ℚ) (b : String) (s : ScanState) :
    scanImage env conf s b =
      ⟨s.allMatches ++ imageQual env conf b,
        s.matchesFound + (imageQual env conf b).length,
        (scanBestPair (imageQual env conf b) (s.best, s.bestConf)).1,
        (scanBestPair (imageQual env conf b) (s.best, s.bestConf)).2⟩ := by
  simp only [scanImage, imageQual]
  cases env.imread b with
  | none => cases s; simp [scanBestPair]
  | some hw =>
    cases hw with
    | mk hh ww =>
      simp only []
      rw [foldl_stepEntry]
      simp [List.length_map]

theorem foldl_scanImage (env : ScreenEnv) (conf : ℚ) :
    ∀ (bs : List String) (s : ScanState),
      bs.foldl (scanImage env conf) s =
        ⟨s.allMatches ++ collectMatches env conf bs,
          s.matchesFound + (collectMatches env conf bs).length,
          (scanBestPair (collectMatches env conf bs) (s.best, s.bestConf)).1,
          (scanBestPair (collectMatches env conf bs) (s.best, s.bestConf)).2⟩ := by
  intro bs
  induction bs with
  | nil => intro s; cases s; simp [collectMatches, scanBestPair]
  | cons b bs ih =>
    intro s
    rw [List.foldl_cons, scanImage_spec, ih]
    have hcol : collectMatches env conf (b :: bs) =
        imageQual env conf b ++ collectMatches env conf bs := by
      simp [collectMatches]
    rw [hcol]
    have hpair : ∀ p : Option (Nat × Nat) × ℚ,
        scanBestPair (imageQual env conf b ++ collectMatches env conf bs) p =
          scanBestPair (collectMatches env conf bs) (scanBestPair (imageQual env conf b) p) := by
      intro p
      simp [scanBestPair, List.foldl_append]
    rw [hpair]
    simp [List.append_assoc, List.length_append]
    omega

/-- The record-holder of the loop: the final value taken by `best` when
scanning `l` with current best score `c`. -/
def runningMax (c : ℚ) : List AMatch → Option AMatch
  | [] => none
  | m :: ms =>
    if c < m.score then some ((runningMax m.score ms).getD m) else runningMax c ms

theorem scanBestPair_eq_runningMax :
    ∀ (l : List AMatch) (b : Option (Nat × Nat)) (c : ℚ),
      scanBestPair l (b, c) =
        match runningMax c l with
        | none => (b, c)
        | some m => (some (m.x, m.y), m.score) := by
  intro l
  induction l with
  | nil => intro b c; rfl
  | cons m ms ih =>
    intro b c
    simp only [scanBestPair, List.foldl_cons, runningMax]
    by_cases hlt : c < m.score
    · rw [if_pos hlt, if_pos hlt]
      have := ih (some (m.x, m.y)) m.score
      rw [show (ms.foldl (fun p m => if p.2 < m.score then (some (m.x, m.y), m.score) else p)
          (some (m.x, m.y), m.score)) = scanBestPair ms (some (m.x, m.y), m.score) from rfl,
        this]
      cases hrm : runningMax m.score ms with
      | none => simp
      | some m' => simp
    · rw [if_neg hlt, if_neg hlt]
      exact ih b c

theorem firstHighest_cons (m : AMatch) (ms : List AMatch) :
    firstHighest (m :: ms) =
      match firstHighest ms with
      | none => some m
      | some m' => if m.score < m'.score then some m' else some m := rfl

theorem firstHighest_filter (l : List AMatch) (a c : ℚ) (hca : c ≤ a) :
    firstHighest (l.filter (fun m => decide (a < m.score))) =
      (firstHighest (l.filter (fun m => decide (c < m.score)))).bind
        (fun m' => if a < m'.score then some m' else none) := by
  induction l with
  | nil => rfl
  | cons m ms ih =>
    by_cases hma : a < m.score
    · have hmc : c < m.score := lt_of_le_of_lt hca hma
      rw [List.filter_cons_of_pos (by simpa using hma),
        List.filter_cons_of_pos (by simpa using hmc),
        firstHighest_cons, firstHighest_cons, ih]
      cases hfc : firstHighest (ms.filter (fun m => decide (c < m.score))) with
      | none => simp [hma]
      | some x =>
        by_cases hxa : a < x.score
        · by_cases hxm : m.score < x.score
          · simp [hxm, hxa]
          · simp [hxm, hxa, hma]
        · have hxm : ¬ m.score < x.score := fun hc => hxa (lt_trans hma hc)
          simp [hxm, hxa, hma]
    · by_cases hmc : c < m.score
      · rw [List.filter_cons_of_neg (by simpa using hma),
          List.filter_cons_of_pos (by simpa using hmc),
          firstHighest_cons, ih]
        cases hfc : firstHighest (ms.filter (fun m => decide (c < m.score))) with
        | none => simp [hma]
        | some x =>
          by_cases hxm : m.score < x.score
          · simp [hxm]
          · have hxa : ¬ a < x.score := fun hc => hma (lt_of_lt_of_le hc (le_of_not_lt hxm))
            simp [hxm, hxa, hma]
      · rw [List.filter_cons_of_neg (by simpa using hma),
          List.filter_cons_of_neg (by simpa using hmc)]
        exact ih

theorem runningMax_eq_firstHighest :
    ∀ (l : List AMatch) (c : ℚ),
      runningMax c l = firstHighest (l.filter (fun m => decide (c < m.score))) := by
  intro l
  induction l with
  | nil => intro c; rfl
  | cons m ms ih =>
    intro c
    by_cases hlt : c < m.score
    · rw [runningMax, if_pos hlt, List.filter_cons_of_pos (by simpa using hlt),
        firstHighest_cons, ih m.score, firstHighest_filter ms m.score c (le_of_lt hlt)]
      cases hfc : firstHighest (ms.filter (fun m => decide (c < m.score))) with
      | none => simp
      | some x =>
        by_cases hxm : m.score < x.score
        · simp [hxm]
        · simp [hxm]
    · rw [runningMax, if_neg hlt, List.filter_cons_of_neg (by simpa using hlt)]
      exact ih c

theorem firstHighest_eq_none_iff (l : List AMatch) : firstHighest l = none ↔ l = [] := by
  cases l with
  | nil => simp [firstHighest]
  | cons m ms =>
    rw [firstHighest_cons]
    constructor
    · intro h
      exfalso
      cases hfc : firstHighest ms with
      | none => rw [hfc] at h; simp at h
      | some x =>
        rw [hfc] at h
        simp only [] at h
        by_cases hxm : m.score < x.score
        · rw [if_pos hxm] at h; simp at h
        · rw [if_neg hxm] at h; simp at h
    · intro h; simp at h

theorem mem_insertDesc (m x : AMatch) (l : List AMatch) :
    x ∈ insertDesc m l ↔ x = m ∨ x ∈ l := by
  induction l with
  | nil => simp [insertDesc]
  | cons a as ih =>
    simp only [insertDesc]
    by_cases hlt : m.score < a.score
    · rw [if_pos hlt]
      simp only [List.mem_cons, ih]
      tauto
    · rw [if_neg hlt]
      simp only [List.mem_cons]

theorem pairwise_insertDesc (m : AMatch) (l : List AMatch)
    (h : l.Pairwise (fun a b => b.score ≤ a.score)) :
    (insertDesc m l).Pairwise (fun a b => b.score ≤ a.score) := by
  induction l with
  | nil => simp [insertDesc]
  | cons a as ih =>
    rw [List.pairwise_cons] at h
    obtain ⟨ha, has⟩ := h
    simp only [insertDesc]
    by_cases hlt : m.score < a.score
    · rw [if_pos hlt]
      rw [List.pairwise_cons]
      refine ⟨?_, ih has⟩
      intro x hx
      rcases (mem_insertDesc m x as).mp hx with hx | hx
      · rw [hx]; exact le_of_lt hlt
      · exact ha x hx
    · rw [if_neg hlt]
      rw [List.pairwise_cons]
      refine ⟨?_, List.pairwise_cons.mpr ⟨ha, has⟩⟩
      intro x hx
      rcases List.mem_cons.mp hx with hx | hx
      · rw [hx]; exact le_of_not_lt hlt
      · exact le_trans (ha x hx) (le_of_not_lt hlt)

theorem pairwise_sortDesc (l : List AMatch) :
    (sortDesc l).Pairwise (fun a b => b.score ≤ a.score) := by
  induction l with
  | nil => simp [sortDesc]
  | cons m ms ih => exact pairwise_insertDesc m (sortDesc ms) ih

theorem score_of_mem_imageQual (env : ScreenEnv) (conf : ℚ) (b : String) (m : AMatch)
    (hm : m ∈ imageQual env conf b) : conf ≤ m.score := by
  simp only [imageQual] at hm
  cases hio : env.imread b with
  | none => rw [hio] at hm; simp at hm
  | some hw =>
    rw [hio] at hm
    cases hw with
    | mk hh ww =>
      simp only [List.mem_map] at hm
      obtain ⟨e, he, rfl⟩ := hm
      have := List.of_mem_filter he
      simpa [toAMatch] using this

theorem score_of_mem_collect (env : ScreenEnv) (conf : ℚ) (bs : List String) (m : AMatch)
    (hm : m ∈ collectMatches env conf bs) : conf ≤ m.score := by
  simp only [collectMatches, List.mem_flatten, List.mem_map] at hm
  obtain ⟨l, ⟨b, _, rfl⟩, hml⟩ := hm
  exact score_of_mem_imageQual env conf b m hml

theorem find_spec (env : ScreenEnv) (name : String) (confidence : ℚ)
    (hpy : env.hasPyautogui = true) (hcv : env.hasCv2 = true)
    (hsc : env.screenshotOk = true) :
    find_element_on_screen env name confidence =
      ((scanBestPair (collectMatches env confidence (candidateImages env name))
          ((none : Option (Nat × Nat)), (0 : ℚ))).1,
       (match (scanBestPair (collectMatches env confidence (candidateImages env name))
          ((none : Option (Nat × Nat)), (0 : ℚ))).1 with
        | some _ => "image"
        | none => "not_found"),
       ⟨(collectMatches env confidence (candidateImages env name)).length,
        (scanBestPair (collectMatches env confidence (candidateImages env name))
          ((none : Option (Nat × Nat)), (0 : ℚ))).2,
        (candidateImages env name).length,
        sortDesc (collectMatches env confidence (candidateImages env name)),
        match get_element env.elements name with
        | some elem => some elem.name
        | none => none⟩) := by
  have hfold := foldl_scanImage env confidence (candidateImages env name) ⟨[], 0, none, 0⟩
  simp only [find_element_on_screen]
  rw [if_neg (show ¬((!env.hasPyautogui) = true) by simp [hpy]),
    if_neg (show ¬((!env.hasCv2) = true) by simp [hcv]),
    if_neg (show ¬((!env.screenshotOk) = true) by simp [hsc]),
    hfold]
  simp only [List.nil_append, Nat.zero_add]
  cases hel : get_element env.elements name with
  | none =>
    cases hsb : (scanBestPair (collectMatches env confidence (candidateImages env name))
        ((none : Option (Nat × Nat)), (0 : ℚ))).1 with
    | none => rfl
    | some c => rfl
  | some elem =>
    cases hsb : (scanBestPair (collectMatches env confidence (candidateImages env name))
        ((none : Option (Nat × Nat)), (0 : ℚ))).1 with
    | none => rfl
    | some c => rfl

/-- C3: with the imaging libraries available, the screenshot succeeding and a
strictly positive threshold, `find_element_on_screen` returns the coordinates
of the first highest-scoring qualifying location across all candidate images
(`not_found` when there is none), `best_score` is that match's score,
`matches_found` counts the qualifying locations, `all_matches` is sorted
descending by score, and `images_tested` counts the candidate images. -/
theorem claim_C3_best_match (env : ScreenEnv) (name : String) (confidence : ℚ)
    (hpy : env.hasPyautogui = true) (hcv : env.hasCv2 = true)
    (hsc : env.screenshotOk = true) (hconf : 0 < confidence) :
    (find_element_on_screen env name confidence).1 =
      (firstHighest (collectMatches env confidence (candidateImages env name))).map
        (fun m => (m.x, m.y)) ∧
    (find_element_on_screen env name confidence).2.1 =
      (if collectMatches env confidence (candidateImages env name) = [] then "not_found"
       else "image") ∧
    (find_element_on_screen env name confidence).2.2.best_score =
      ((firstHighest (collectMatches env confidence (candidateImages env name))).map
        AMatch.score).getD 0 ∧
    (find_element_on_screen env name confidence).2.2.matches_found =
      (collectMatches env confidence (candidateImages env name)).length ∧
    (find_element_on_screen env name confidence).2.2.all_matches.Pairwise
      (fun a b => b.score ≤ a.score) ∧
    (find_element_on_screen env name confidence).2.2.images_tested =
      (candidateImages env name).length := by
  have hpos : ∀ m ∈ collectMatches env confidence (candidateImages env name), 0 < m.score :=
    fun m hm => lt_of_lt_of_le hconf (score_of_mem_collect env confidence _ m hm)
  have hfilter : (collectMatches env confidence (candidateImages env name)).filter
      (fun m => decide (0 < m.score)) =
      collectMatches env confidence (candidateImages env name) :=
    List.filter_eq_self.mpr (fun m hm => by simpa using hpos m hm)
  have hscan : scanBestPair (collectMatches env confidence (candidateImages env name))
      ((none : Option (Nat × Nat)), (0 : ℚ)) =
      match firstHighest (collectMatches env confidence (candidateImages env name)) with
      | none => (none, 0)
      | some m => (some (m.x, m.y), m.score) := by
    rw [scanBestPair_eq_runningMax, runningMax_eq_firstHighest, hfilter]
  rw [find_spec env name confidence hpy hcv hsc]
  cases hfc : firstHighest (collectMatches env confidence (candidateImages env name)) with
  | none =>
    rw [hfc] at hscan
    simp only [] at hscan
    have hnil : collectMatches env confidence (candidateImages env name) = [] :=
      (firstHighest_eq_none_iff _).mp hfc
    refine ⟨?_, ?_, ?_, ?_, ?_, ?_⟩
    · simp [hscan]
    · rw [if_pos hnil]
      simp [hscan]
    · simp [hscan]
    · rfl
    · simpa using pairwise_sortDesc (collectMatches env confidence (candidateImages env name))
    · rfl
  | some m =>
    rw [hfc] at hscan
    simp only [] at hscan
    have hne : collectMatches env confidence (candidateImages env name) ≠ [] := by
      intro h
      rw [(firstHighest_eq_none_iff _).mpr h] at hfc
      exact Option.noConfusion hfc
    refine ⟨?_, ?_, ?_, ?_, ?_, ?_⟩
    · simp [hscan]
    · rw [if_neg hne]
      simp [hscan]
    · simp [hscan]
    · rfl
    · simpa using pairwise_sortDesc (collectMatches env confidence (candidateImages env name))
    · rfl

/-- A concrete imaging environment: one registered element whose single
recorded image exists, loads as a 10×10 template, and produces one match
location of score exactly 0. -/
def envC3x : ScreenEnv :=
  ⟨true, true, true,
   [("b", ⟨"b", "", ["img.png"], []⟩)],
   ["img.png"],
   fun f => if f = "img.png" then some (10, 10) else none,
   fun f => if f = "img.png" then [⟨10, 10, 0⟩] else []⟩

/-- C3, counterexample to the claim as stated: at threshold 0 the location of
score 0 qualifies (`score >= confidence`), yet the selection test
`score > best_confidence` against the initial best of 0 never accepts it, so
the call returns no coordinate instead of the highest-scoring qualifying
location (and its `matches_found` is 1, not 0). -/
theorem claim_C3_counterexample :
    ¬ ((find_element_on_screen envC3x "b" 0).1 =
        (firstHighest (collectMatches envC3x 0 (candidateImages envC3x "b"))).map
          (fun m => (m.x, m.y)) ∧
       ((find_element_on_screen envC3x "b" 0).2.1 = "not_found" →
        (find_element_on_screen envC3x "b" 0).2.2.matches_found = 0)) := by
  decide

/-- A concrete imaging environment with one qualifying location of score
9/10. -/
def envC3w : ScreenEnv :=
  ⟨true, true, true,
   [("b", ⟨"b", "", ["img.png"], []⟩)],
   ["img.png"],
   fun f => if f = "img.png" then some (10, 10) else none,
   fun f => if f = "img.png" then [⟨10, 10, 9/10⟩] else []⟩

/-- The C5 scenario environment: registry exactly
`{"save_button": {"images": ["save.png"], "tags": ["ui"]}}`, the file
`save.png` present in the captures directory, loading as a 20×40 template,
and the screen containing it so that template matching yields one location
of score 9/10 whose center is (120, 340). -/
def ratFourFifths : ℚ := ⟨4, 5, by decide, by decide⟩

def ratNineTenths : ℚ := ⟨9, 10, by decide, by decide⟩

def env5 : ScreenEnv :=
  ⟨true, true, true,
   [("save_button", ⟨"save_button", "", ["save.png"], ["ui"]⟩)],
   ["save.png"],
   fun f => if f = "save.png" then some (20, 40) else none,
   fun f => if f = "save.png" then [⟨100, 330, ratNineTenths⟩] else []⟩

/-- C5: in the claimed scenario the call `find_element_on_screen
("save button", 0.8)` does NOT return the coordinate (120, 340) with method
"image": the query "save button" is passed to `get_element` unnormalized, it
matches neither the key "save_button" (space vs. underscore) nor the tag
"ui", every filename fallback pattern is underscored and misses "save.png",
so no candidate image is tested at all and the call returns
(none, "not_found"). The same call with the already-normalized name
"save_button" does return (120, 340) with method "image", isolating the
divergence to the name-resolution step. -/
theorem claim_C5_scenario :
    (find_element_on_screen env5 "save button" ratFourFifths).1 = none ∧
    (find_element_on_screen env5 "save button" ratFourFifths).2.1 = "not_found" ∧
    (find_element_on_screen env5 "save button" ratFourFifths).2.2.images_tested = 0 ∧
    candidateImages env5 "save button" = [] ∧
    (find_element_on_screen env5 "save_button" ratFourFifths).1 = some (120, 340) ∧
    (find_element_on_screen env5 "save_button" ratFourFifths).2.1 = "image" := by
  decide

/-! ## Keyboard (`remove_accents` / `do_write`, macro_agent.py:623-654) -/

/-- The Unicode data `remove_accents` consults: NFD normalization and the
"is the character a combining mark (category Mn)" test, kept abstract as an
oracle because they are `unicodedata` tables. -/
structure UnicodeOracle where
  nfd : String → String
  isMn : Char → Bool

/-- `remove_accents` (macro_agent.py:623-628): NFD-normalize, then keep only
the characters that are not combining marks. -/
def remove_accents (u : UnicodeOracle) (text : String) : String :=
  String.mk ((u.nfd text).toList.filter (fun c => !u.isMn c))

/-- One observable keyboard-side effect of `do_write`. -/
inductive KbdEv where
  | write (s : String) (interval : ℚ)
  | hotkey (k1 k2 : String)
  | sleep (d : ℚ)
  | soundType (n : Nat)
deriving Repr, DecidableEq

/-- 0.1 as an exact rational (the inter-line settle pause). -/
def ratOneTenth : ℚ := ⟨1, 10, by decide, by decide⟩

/-- The keystroke sequence of `do_write`'s line loop: each non-empty line is
written, and every line but the last is followed by shift+enter and a 0.1 s
pause. -/
def writeLines (interval : ℚ) : List String → List KbdEv
  | [] => []
  | l :: ls =>
    (if l.isEmpty then [] else [KbdEv.write l interval]) ++
      (match ls with
       | [] => []
       | _ :: _ =>
         KbdEv.hotkey "shift" "enter" :: KbdEv.sleep ratOneTenth ::
           writeLines interval ls)

/-- `do_write` (macro_agent.py:631-654) as the list of keyboard events it
emits; `none` models the `error()` exit when pyautogui is unavailable. -/
def do_write (hasPyautogui : Bool) (u : UnicodeOracle) (text : String)
    (interval : ℚ) : Option (List KbdEv) :=
  if hasPyautogui then
    let text_clean := remove_accents u text
    some (KbdEv.soundType text_clean.length ::
      (if text_clean.toList.elem '\n' then
        writeLines interval (pySplitChar '\n' text_clean)
       else [KbdEv.write text_clean interval]))
  else none

theorem splitCharAux_mem (sep : Char) (p : Char → Prop) :
    ∀ (cs acc : List Char),
      (∀ a ∈ acc, a ≠ sep ∧ p a) →
      (∀ a ∈ cs, a ≠ sep → p a) →
      ∀ l ∈ splitCharAux sep cs acc, ∀ c ∈ l.toList, c ≠ sep ∧ p c := by
  intro cs
  induction cs with
  | nil =>
    intro acc hacc _ l hl c hc
    simp only [splitCharAux, List.mem_singleton] at hl
    subst hl
    have hc' : c ∈ acc.reverse := hc
    exact hacc c (List.mem_reverse.mp hc')
  | cons d cs ih =>
    intro acc hacc hcs l hl c hc
    simp only [splitCharAux] at hl
    by_cases hd : d = sep
    · rw [if_pos hd] at hl
      rcases List.mem_cons.mp hl with hl | hl
      · subst hl
        have hc' : c ∈ acc.reverse := hc
        exact hacc c (List.mem_reverse.mp hc')
      · exact ih [] (by simp) (fun a ha hne => hcs a (List.mem_cons_of_mem _ ha) hne)
          l hl c hc
    · rw [if_neg hd] at hl
      refine ih (d :: acc) ?_ (fun a ha hne => hcs a (List.mem_cons_of_mem _ ha) hne)
        l hl c hc
      intro a ha
      rcases List.mem_cons.mp ha with rfl | ha
      · exact ⟨hd, hcs a (List.mem_cons_self _ _) hd⟩
      · exact hacc a ha

theorem pySplitChar_mem (sep : Char) (p : Char → Prop) (s : String)
    (hp : ∀ a ∈ s.toList, a ≠ sep → p a) :
    ∀ l ∈ pySplitChar sep s, ∀ c ∈ l.toList, c ≠ sep ∧ p c :=
  splitCharAux_mem sep p s.toList [] (by simp) hp

theorem mem_writeLines (interval : ℚ) :
    ∀ (ls : List String) (s : String) (i : ℚ),
      KbdEv.write s i ∈ writeLines interval ls → s ∈ ls ∧ i = interval := by
  intro ls
  induction ls with
  | nil => intro s i h; simp [writeLines] at h
  | cons l ls ih =>
    intro s i h
    simp only [writeLines] at h
    rcases List.mem_append.mp h with h | h
    · by_cases hemp : l.isEmpty = true
      · rw [if_pos hemp] at h
        simp at h
      · rw [if_neg hemp] at h
        simp only [List.mem_singleton] at h
        injection h with h1 h2
        exact ⟨by rw [h1]; exact List.mem_cons_self _ _, h2⟩
    · cases ls with
      | nil => simp at h
      | cons l' ls' =>
        simp only [List.mem_cons] at h
        rcases h with h | h | h
        · exact absurd h (by simp)
        · exact absurd h (by simp)
        · obtain ⟨h1, h2⟩ := ih s i h
          exact ⟨List.mem_cons_of_mem _ h1, h2⟩

/-- C6: every string that `do_write` types has already had all combining
marks stripped and contains no newline character, and on input `"a\nb"` the
emitted trace is exactly two writes separated by one shift+enter and the
settle pause — a literal newline is never typed. -/
theorem claim_C6_do_write (u : UnicodeOracle) (interval : ℚ)
    (hnfd : u.nfd "a\nb" = "a\nb")
    (hmn : ∀ c ∈ ("a\nb").toList, u.isMn c = false) :
    (∀ (text : String) (trace : List KbdEv),
      do_write true u text interval = some trace →
      ∀ (s : String) (i : ℚ), KbdEv.write s i ∈ trace →
        (∀ c ∈ s.toList, u.isMn c = false) ∧ '\n' ∉ s.toList) ∧
    do_write true u "a\nb" interval =
      some [KbdEv.soundType 3, KbdEv.write "a" interval,
        KbdEv.hotkey "shift" "enter", KbdEv.sleep ratOneTenth,
        KbdEv.write "b" interval] := by
  have hfilterMn : ∀ (text : String) (c : Char),
      c ∈ (remove_accents u text).toList → u.isMn c = false := by
    intro text c hc
    have hc' : c ∈ (u.nfd text).toList.filter (fun c => !u.isMn c) := hc
    have h2 := List.of_mem_filter hc'
    simpa using h2
  constructor
  · intro text trace htr s i hmem
    rw [show do_write true u text interval =
        some (KbdEv.soundType (remove_accents u text).length ::
          (if (remove_accents u text).toList.elem '\n' then
            writeLines interval (pySplitChar '\n' (remove_accents u text))
           else [KbdEv.write (remove_accents u text) interval])) from rfl] at htr
    injection htr with htr
    subst htr
    rcases List.mem_cons.mp hmem with h | h
    · exact KbdEv.noConfusion h
    · cases hln : (remove_accents u text).toList.elem '\n' with
      | false =>
        rw [hln] at h
        rw [if_neg (by simp)] at h
        simp only [List.mem_singleton] at h
        injection h with h1 h2
        subst h1
        refine ⟨fun c hc => hfilterMn text c hc, fun hin => ?_⟩
        have helem : List.elem '\n' (remove_accents u text).toList = true :=
          List.elem_iff.mpr hin
        rw [hln] at helem
        exact Bool.noConfusion helem
      | true =>
        rw [hln, if_pos rfl] at h
        obtain ⟨hs, rfl⟩ := mem_writeLines interval _ s i h
        have hall := pySplitChar_mem '\n' (fun c => u.isMn c = false)
          (remove_accents u text) (fun a ha _ => hfilterMn text a ha) s hs
        exact ⟨fun c hc => (hall c hc).2, fun hin => (hall '\n' hin).1 rfl⟩
  · have hl : ("a\nb").toList = ['a', '\n', 'b'] := rfl
    have ha : u.isMn 'a' = false := hmn 'a' (by rw [hl]; simp)
    have hn : u.isMn '\n' = false := hmn '\n' (by rw [hl]; simp)
    have hb : u.isMn 'b' = false := hmn 'b' (by rw [hl]; simp)
    have hclean : remove_accents u "a\nb" = "a\nb" := by
      simp only [remove_accents]
      rw [hnfd, hl,
        List.filter_cons_of_pos (by rw [ha]; rfl),
        List.filter_cons_of_pos (by rw [hn]; rfl),
        List.filter_cons_of_pos (by rw [hb]; rfl)]
      rfl
    rw [show do_write true u "a\nb" interval =
        some (KbdEv.soundType (remove_accents u "a\nb").length ::
          (if (remove_accents u "a\nb").toList.elem '\n' then
            writeLines interval (pySplitChar '\n' (remove_accents u "a\nb"))
           else [KbdEv.write (remove_accents u "a\nb") interval])) from rfl,
      hclean]
    rfl

/-- A concrete Unicode oracle: NFD is the identity and no character is a
combining mark (true on the ASCII inputs used below). -/
def uC6 : UnicodeOracle := ⟨fun s => s, fun _ => false⟩

theorem claim_C6_witness :
    uC6.nfd "a\nb" = "a\nb" ∧ (∀ c ∈ ("a\nb").toList, uC6.isMn c = false) ∧
    ((∀ (text : String) (trace : List KbdEv),
        do_write true uC6 text 0 = some trace →
        ∀ (s : String) (i : ℚ), KbdEv.write s i ∈ trace →
          (∀ c ∈ s.toList, uC6.isMn c = false) ∧ '\n' ∉ s.toList) ∧
      do_write true uC6 "a\nb" 0 =
        some [KbdEv.soundType 3, KbdEv.write "a" 0,
          KbdEv.hotkey "shift" "enter", KbdEv.sleep ratOneTenth,
          KbdEv.write "b" 0]) :=
  ⟨rfl, fun c _ => rfl, claim_C6_do_write uC6 0 rfl (fun c _ => rfl)⟩

/-! ## Mouse (`move_smooth`, macro_agent.py:365-555)

Floats are modelled as rationals. `math.sqrt` never needs to be taken: the
`distance < 5` test is expressed as `dx² + dy² < 25` (exact, because the
endpoints are integer pixel positions), and everywhere else
`distance` cancels — the Bézier control-point offsets are
`(-dy/distance)·(distance·variance·choice·uniform) = -dy·v` with
`v = variance·choice·uniform` supplied by the randomness oracle, and the
overshoot displacement `(dx/distance)·uniform(3,12)` is supplied directly as
an oracle value. -/

/-- One outcome of all the `random.*` draws of a `move_smooth` call. -/
structure Rng where
  speedMult : ℚ
  ctrlOffset1 : ℚ
  ctrlOffset2 : ℚ
  jitter : Nat → Option (ℚ × ℚ)
  micropause : Nat → Option ℚ
  overshoot : Option (ℚ × ℚ × ℚ)

/-- One observable effect of `move_smooth`. -/
inductive MouseEv where
  | moveTo (x y : ℤ)
  | moveToDur (x y : ℤ) (duration : ℚ)
  | sleep (d : ℚ)
deriving Repr, DecidableEq

/-- Python `int()` on a rational: truncation toward zero. -/
def pyInt (q : ℚ) : ℤ := Int.tdiv q.num (q.den : ℤ)

/-- `_easing_function` (macro_agent.py:453-458). -/
def easing (t : ℚ) : ℚ :=
  if t < 1/2 then 2 * t * t else 1 - (-2 * t + 2) ^ 2 / 2

/-- `_bezier_curve` (macro_agent.py:394-405). -/
def bezier (t : ℚ) (p0 p1 p2 p3 : ℚ × ℚ) : ℚ × ℚ :=
  let u := 1 - t
  let tt := t * t
  let uu := u * u
  let uuu := uu * u
  let ttt := tt * t
  (uuu * p0.1 + 3 * uu * t * p1.1 + 3 * u * tt * p2.1 + ttt * p3.1,
   uuu * p0.2 + 3 * uu * t * p1.2 + 3 * u * tt * p2.2 + ttt * p3.2)

/-- `_generate_control_points` (macro_agent.py:408-438), with the
perpendicular unit vector times the offset already combined (the `distance`
factors cancel). -/
def controlPoints (rng : Rng) (start pend : ℚ × ℚ) : (ℚ × ℚ) × (ℚ × ℚ) :=
  let dx := pend.1 - start.1
  let dy := pend.2 - start.2
  ((start.1 + dx * (33/100) + -dy * rng.ctrlOffset1,
    start.2 + dy * (33/100) + dx * rng.ctrlOffset1),
   (start.1 + dx * (66/100) + -dy * rng.ctrlOffset2,
    start.2 + dy * (66/100) + dx * rng.ctrlOffset2))

/-- One Bézier step of the movement loop (macro_agent.py:512-531): eased
curve position, optional jitter, truncated `moveTo`, then a micro-pause or
the regular step pause. -/
def stepList (rng : Rng) (start p1 p2 pend : ℚ × ℚ) (ns : Nat) (stepDur : ℚ) :
    List MouseEv :=
  (List.range (ns + 1)).flatMap (fun i =>
    let t : ℚ := (i : ℚ) / (ns : ℚ)
    let pos := bezier (easing t) start p1 p2 pend
    let pos' :=
      match rng.jitter i with
      | some jxy => (pos.1 + jxy.1, pos.2 + jxy.2)
      | none => pos
    [MouseEv.moveTo (pyInt pos'.1) (pyInt pos'.2),
     match rng.micropause i with
     | some d => MouseEv.sleep d
     | none => MouseEv.sleep stepDur])

/-- `move_smooth` (macro_agent.py:465-555) as the list of mouse events it
emits; `none` models the `error()` exit when pyautogui is unavailable. -/
def move_smooth (hasPyautogui : Bool) (rng : Rng) (start : ℤ × ℤ) (x y : ℤ)
    (duration : ℚ) (humanize : Bool) : Option (List MouseEv) :=
  if hasPyautogui then
    let startq : ℚ × ℚ := ((start.1 : ℚ), (start.2 : ℚ))
    let pend : ℚ × ℚ := ((x : ℚ), (y : ℚ))
    let dx := x - start.1
    let dy := y - start.2
    if dx * dx + dy * dy < 25 then some [MouseEv.moveTo x y]
    else if !humanize then some [MouseEv.moveToDur x y duration]
    else
      let actual_duration := duration * rng.speedMult
      let cp := controlPoints rng startq pend
      let num_steps := max (pyInt (actual_duration * 60)) 10
      let ns := num_steps.toNat
      let step_duration := actual_duration / (ns : ℚ)
      some (stepList rng startq cp.1 cp.2 pend ns step_duration ++
        match rng.overshoot with
        | some od =>
          [MouseEv.moveTo (pyInt (pend.1 + od.1)) (pyInt (pend.2 + od.2.1)),
           MouseEv.sleep od.2.2, MouseEv.moveTo x y]
        | none => [MouseEv.moveTo x y])
  else none

/-- The pointer coordinates an event moves to, if it is a move. -/
def moveCoords : MouseEv → Option (ℤ × ℤ)
  | MouseEv.moveTo a b => some (a, b)
  | MouseEv.moveToDur a b _ => some (a, b)
  | MouseEv.sleep _ => none

/-- The final pointer position after a trace of mouse events. -/
def lastMove (tr : List MouseEv) : Option (ℤ × ℤ) :=
  (tr.filterMap moveCoords).getLast?

theorem lastMove_append (l tail : List MouseEv) (c : ℤ × ℤ)
    (h : lastMove tail = some c) (hne : tail.filterMap moveCoords ≠ []) :
    lastMove (l ++ tail) = some c := by
  unfold lastMove at h ⊢
  rw [List.filterMap_append, List.getLast?_append_of_ne_nil _ hne]
  exact h

/-- C7: with pyautogui available and humanize enabled, every `move_smooth`
trace — whatever the randomization outcome — ends with a move to exactly
(x, y); and when the squared start-to-end distance is below 25 (distance
< 5 px) the trace is the single direct `moveTo`, with no synthesized steps,
regardless of the random draws. -/
theorem claim_C7_move_smooth (rng : Rng) (start : ℤ × ℤ) (x y : ℤ)
    (duration : ℚ) (tr : List MouseEv)
    (htr : move_smooth true rng start x y duration true = some tr) :
    lastMove tr = some (x, y) ∧
    ((x - start.1) * (x - start.1) + (y - start.2) * (y - start.2) < 25 →
      tr = [MouseEv.moveTo x y]) := by
  rw [show move_smooth true rng start x y duration true =
      (if (x - start.1) * (x - start.1) + (y - start.2) * (y - start.2) < 25 then
        some [MouseEv.moveTo x y]
       else
        some (stepList rng ((start.1 : ℚ), (start.2 : ℚ))
            (controlPoints rng ((start.1 : ℚ), (start.2 : ℚ)) ((x : ℚ), (y : ℚ))).1
            (controlPoints rng ((start.1 : ℚ), (start.2 : ℚ)) ((x : ℚ), (y : ℚ))).2
            ((x : ℚ), (y : ℚ))
            (max (pyInt (duration * rng.speedMult * 60)) 10).toNat
            (duration * rng.speedMult /
              ((max (pyInt (duration * rng.speedMult * 60)) 10).toNat : ℚ)) ++
          match rng.overshoot with
          | some od =>
            [MouseEv.moveTo (pyInt ((x : ℚ) + od.1)) (pyInt ((y : ℚ) + od.2.1)),
             MouseEv.sleep od.2.2, MouseEv.moveTo x y]
          | none => [MouseEv.moveTo x y])) from rfl] at htr
  by_cases hd : (x - start.1) * (x - start.1) + (y - start.2) * (y - start.2) < 25
  · rw [if_pos hd] at htr
    injection htr with htr
    subst htr
    exact ⟨rfl, fun _ => rfl⟩
  · rw [if_neg hd] at htr
    injection htr with htr
    subst htr
    refine ⟨?_, fun hlt => absurd hlt hd⟩
    cases hov : rng.overshoot with
    | none =>
      exact lastMove_append _ _ (x, y) rfl (by simp [moveCoords])
    | some od =>
      exact lastMove_append _ _ (x, y) rfl (by simp [moveCoords])

/-- A concrete randomness outcome: nominal speed, straight control points, no
jitter, no micro-pauses, no overshoot. -/
def rngC7 : Rng := ⟨1, 0, 0, fun _ => none, fun _ => none, none⟩

theorem claim_C7_witness :
    move_smooth true rngC7 (0, 0) 1 1 1 true = some [MouseEv.moveTo 1 1] ∧
    (lastMove [MouseEv.moveTo 1 1] = some (1, 1) ∧
      (((1 : ℤ) - ((0, 0) : ℤ × ℤ).1) * ((1 : ℤ) - ((0, 0) : ℤ × ℤ).1) +
          ((1 : ℤ) - ((0, 0) : ℤ × ℤ).2) * ((1 : ℤ) - ((0, 0) : ℤ × ℤ).2) < 25 →
        [MouseEv.moveTo 1 1] = [MouseEv.moveTo 1 1])) :=
  ⟨by decide,
   claim_C7_move_smooth rngC7 (0, 0) 1 1 1 [MouseEv.moveTo 1 1] (by decide)⟩

/-! ## Action interpreter (`execute_action` / `execute_actions`,
macro_agent.py:698-851)

`error()` (macro_agent.py:82-85) prints a JSON failure and calls
`sys.exit(1)`, which raises `SystemExit` — a `BaseException` that the
`except Exception` handler of `execute_action` does NOT catch. The
interpreter's outcomes are therefore modelled as `Except PyErr _`:
`PyErr.exc` is an ordinary `Exception` (caught), `PyErr.exit` is
`SystemExit` (uncaught, kills the process). Actions are the structured
counterparts of the action dictionaries; the pyautogui-backed helpers
(`move_smooth`, `do_click`, `do_write`, ...) all share the shape "exit if
pyautogui is unavailable, else succeed or raise whatever the hardware layer
raises", the latter supplied by the `prim` oracle. -/

/-- An action dictionary, one constructor per dispatch arm of
`execute_action`; `unknown` is any unrecognized `type`. -/
inductive Action where
  | move (x y : ℤ) (duration : ℚ)
  | moveTarget (target : String) (confidence : ℚ)
  | click (x y : Option ℤ) (button : String)
  | clickTarget (target : String) (confidence : ℚ)
  | doubleClick (x y : Option ℤ)
  | rightClick (x y : Option ℤ)
  | drag (x1 y1 x2 y2 : ℤ)
  | scroll (amount : ℤ) (x y : Option ℤ)
  | write (text : String) (interval : ℚ)
  | press (key : String)
  | hotkey (keys : List String)
  | wait (seconds : ℚ)
  | screenshot (filename : Option String)
  | unknown (ty : String)
  | ifVisible (target : String) (confidence : ℚ) (thenA elseA : List Action)
  | ifNotVisible (target : String) (confidence : ℚ) (thenA elseA : List Action)
deriving Repr

/-- The exceptional outcomes: a caught-able `Exception` with its message, or
`SystemExit` with its exit code. -/
inductive PyErr where
  | exc (msg : String)
  | exit (code : Nat)
deriving Repr, DecidableEq

/-- The fields of a result dictionary the claims are about: the `success`
flag, the `error` message if any, and the 1-based `step` set by the batch
runner (0 before assignment). -/
structure ActionResult where
  success : Bool
  error : Option String
  step : Nat
deriving Repr, DecidableEq

/-- The interpreter's environment: the imaging environment and the
exception oracle for the pyautogui-backed primitive of each action
(`none` = the primitive returns normally, `some msg` = it raises
`Exception` with message `msg`). -/
structure ExecEnv where
  screen : ScreenEnv
  prim : Action → Option String

/-- The shared shape of `move_smooth`/`do_click`/`do_write`/`do_press`/...:
`error()` (= `SystemExit`) when pyautogui is unavailable, otherwise succeed
or raise what the oracle says. -/
def runPrim (env : ExecEnv) (a : Action) : Except PyErr Unit :=
  if !env.screen.hasPyautogui then Except.error (PyErr.exit 1)
  else
    match env.prim a with
    | some msg => Except.error (PyErr.exc msg)
    | none => Except.ok ()

/-- Run the primitive of an action and build its success result. -/
def primResult (env : ExecEnv) (a : Action) : Except PyErr ActionResult :=
  match runPrim env a with
  | Except.error e => Except.error e
  | Except.ok _ => Except.ok ⟨true, none, 0⟩

/-- The `try/except Exception` wrapper of `execute_action`: an `Exception`
becomes `{"success": false, "error": str(e)}`; `SystemExit` passes
through. -/
def pyCatch (r : Except PyErr ActionResult) : Except PyErr ActionResult :=
  match r with
  | Except.error (PyErr.exc msg) => Except.ok ⟨false, some msg, 0⟩
  | other => other

/-- `execute_action` (macro_agent.py:698-783). The `move-to`/`click-on`
arms return an "Elemento no encontrado" failure when
`find_element_on_screen` yields no coordinates; `wait` only sleeps;
`screenshot` is a no-op without pyautogui (its arm has no `else`);
conditional types fall to the unknown-type arm. -/
def execute_action (env : ExecEnv) (a : Action) : Except PyErr ActionResult :=
  pyCatch
    (match a with
     | Action.move _ _ _ => primResult env a
     | Action.moveTarget target confidence =>
       match (find_element_on_screen env.screen target confidence).1 with
       | none => Except.ok ⟨false, some ("Elemento no encontrado: " ++ target), 0⟩
       | some _ => primResult env a
     | Action.click _ _ _ => primResult env a
     | Action.clickTarget target confidence =>
       match (find_element_on_screen env.screen target confidence).1 with
       | none => Except.ok ⟨false, some ("Elemento no encontrado: " ++ target), 0⟩
       | some _ => primResult env a
     | Action.doubleClick _ _ => primResult env a
     | Action.rightClick _ _ => primResult env a
     | Action.drag _ _ _ _ => primResult env a
     | Action.scroll _ _ _ => primResult env a
     | Action.write _ _ => primResult env a
     | Action.press _ => primResult env a
     | Action.hotkey _ => primResult env a
     | Action.wait _ => Except.ok ⟨true, none, 0⟩
     | Action.screenshot _ =>
       if env.screen.hasPyautogui then
         match env.prim a with
         | some msg => Except.error (PyErr.exc msg)
         | none => Except.ok ⟨true, none, 0⟩
       else Except.ok ⟨true, none, 0⟩
     | Action.unknown ty => Except.ok ⟨false, some ("Acción desconocida: " ++ ty), 0⟩
     | Action.ifVisible _ _ _ _ =>
       Except.ok ⟨false, some "Acción desconocida: if-visible", 0⟩
     | Action.ifNotVisible _ _ _ _ =>
       Except.ok ⟨false, some "Acción desconocida: if-not-visible", 0⟩)

/-- Is the action one of the two conditional types the batch runner handles
itself? -/
def isCond : Action → Bool
  | Action.ifVisible _ _ _ _ => true
  | Action.ifNotVisible _ _ _ _ => true
  | _ => false

/-- The branch loop of a conditional (macro_agent.py:838-846): run each
branch action through `execute_action`, stamp it with the conditional's
step, and stop (second component `true`) at the first failure. -/
def runBranchList (env : ExecEnv) (step : Nat) :
    List Action → Except PyErr (List ActionResult × Bool)
  | [] => Except.ok ([], false)
  | a :: rest =>
    match execute_action env a with
    | Except.error e => Except.error e
    | Except.ok r =>
      if r.success then
        match runBranchList env step rest with
        | Except.error e => Except.error e
        | Except.ok rb => Except.ok ({ r with step := step } :: rb.1, rb.2)
      else Except.ok ([{ r with step := step }], true)

/-- The `while` loop of `execute_actions` (macro_agent.py:795-851), `i`
being the 0-based index of the current action. -/
def runActionsAux (env : ExecEnv) : List Action → Nat → Except PyErr (List ActionResult)
  | [], _ => Except.ok []
  | a :: rest, i =>
    if isCond a then
      let info :=
        match a with
        | Action.ifVisible target confidence thenA elseA =>
          (target, confidence, thenA, elseA, true)
        | Action.ifNotVisible target confidence thenA elseA =>
          (target, confidence, thenA, elseA, false)
        | _ => ("", ratFourFifths, [], [], true)
      let visible := (find_element_on_screen env.screen info.1 info.2.1).1.isSome
      let condMet := if info.2.2.2.2 then visible else !visible
      let res0 : ActionResult := ⟨true, none, i + 1⟩
      let branch := if condMet then info.2.2.1 else info.2.2.2.1
      match runBranchList env (i + 1) branch with
      | Except.error e => Except.error e
      | Except.ok rb =>
        if rb.2 then Except.ok (res0 :: rb.1)
        else
          match runActionsAux env rest (i + 1) with
          | Except.error e => Except.error e
          | Except.ok rs => Except.ok (res0 :: rb.1 ++ rs)
    else
      match execute_action env a with
      | Except.error e => Except.error e
      | Except.ok r =>
        if r.success then
          match runActionsAux env rest (i + 1) with
          | Except.error e => Except.error e
          | Except.ok rs => Except.ok ({ r with step := i + 1 } :: rs)
        else Except.ok [{ r with step := i + 1 }]

/-- `execute_actions` (macro_agent.py:795-851). -/
def execute_actions (env : ExecEnv) (actions : List Action) :
    Except PyErr (List ActionResult) :=
  runActionsAux env actions 0

theorem pyCatch_primResult (env : ExecEnv) (hpy : env.screen.hasPyautogui = true)
    (a : Action) :
    pyCatch (primResult env a) = Except.ok ⟨true, none, 0⟩ ∨
    ∃ msg, env.prim a = some msg ∧
      pyCatch (primResult env a) = Except.ok ⟨false, some msg, 0⟩ := by
  cases hp : env.prim a with
  | none => left; simp [pyCatch, primResult, runPrim, hpy, hp]
  | some msg => right; exact ⟨msg, rfl, by simp [pyCatch, primResult, runPrim, hpy, hp]⟩

/-- C1 (amended with pyautogui availability): with pyautogui available,
`execute_action` returns a structured result for every action — no
exception and no `SystemExit` escapes — every failed result carries an
error message, and an `Exception` raised by the primitive of a `move`
action surfaces as `success = false` with exactly that exception's
message. -/
theorem claim_C1_no_escape (env : ExecEnv) (hpy : env.screen.hasPyautogui = true) :
    (∀ a : Action, ∃ r : ActionResult,
      execute_action env a = Except.ok r ∧
      (r.success = false → r.error.isSome = true)) ∧
    (∀ (x y : ℤ) (d : ℚ) (msg : String),
      env.prim (Action.move x y d) = some msg →
      execute_action env (Action.move x y d) = Except.ok ⟨false, some msg, 0⟩) := by
  constructor
  · intro a
    cases a with
    | move x y d =>
      rcases pyCatch_primResult env hpy (Action.move x y d) with h | ⟨msg, _, h⟩
      · exact ⟨⟨true, none, 0⟩, h, by simp⟩
      · exact ⟨⟨false, some msg, 0⟩, h, fun _ => rfl⟩
    | moveTarget target confidence =>
      cases hc : (find_element_on_screen env.screen target confidence).1 with
      | none =>
        refine ⟨⟨false, some ("Elemento no encontrado: " ++ target), 0⟩, ?_, fun _ => rfl⟩
        simp [execute_action, hc, pyCatch]
      | some c =>
        rcases pyCatch_primResult env hpy (Action.moveTarget target confidence)
          with h | ⟨msg, _, h⟩
        · exact ⟨⟨true, none, 0⟩, by simp [execute_action, hc]; exact h, by simp⟩
        · exact ⟨⟨false, some msg, 0⟩, by simp [execute_action, hc]; exact h, fun _ => rfl⟩
    | click x y b =>
      rcases pyCatch_primResult env hpy (Action.click x y b) with h | ⟨msg, _, h⟩
      · exact ⟨⟨true, none, 0⟩, h, by simp⟩
      · exact ⟨⟨false, some msg, 0⟩, h, fun _ => rfl⟩
    | clickTarget target confidence =>
      cases hc : (find_element_on_screen env.screen target confidence).1 with
      | none =>
        refine ⟨⟨false, some ("Elemento no encontrado: " ++ target), 0⟩, ?_, fun _ => rfl⟩
        simp [execute_action, hc, pyCatch]
      | some c =>
        rcases pyCatch_primResult env hpy (Action.clickTarget target confidence)
          with h | ⟨msg, _, h⟩
        · exact ⟨⟨true, none, 0⟩, by simp [execute_action, hc]; exact h, by simp⟩
        · exact ⟨⟨false, some msg, 0⟩, by simp [execute_action, hc]; exact h, fun _ => rfl⟩
    | doubleClick x y =>
      rcases pyCatch_primResult env hpy (Action.doubleClick x y) with h | ⟨msg, _, h⟩
      · exact ⟨⟨true, none, 0⟩, h, by simp⟩
      · exact ⟨⟨false, some msg, 0⟩, h, fun _ => rfl⟩
    | rightClick x y =>
      rcases pyCatch_primResult env hpy (Action.rightClick x y) with h | ⟨msg, _, h⟩
      · exact ⟨⟨true, none, 0⟩, h, by simp⟩
      · exact ⟨⟨false, some msg, 0⟩, h, fun _ => rfl⟩
    | drag x1 y1 x2 y2 =>
      rcases pyCatch_primResult env hpy (Action.drag x1 y1 x2 y2) with h | ⟨msg, _, h⟩
      · exact ⟨⟨true, none, 0⟩, h, by simp⟩
      · exact ⟨⟨false, some msg, 0⟩, h, fun _ => rfl⟩
    | scroll amount x y =>
      rcases pyCatch_primResult env hpy (Action.scroll amount x y) with h | ⟨msg, _, h⟩
      · exact ⟨⟨true, none, 0⟩, h, by simp⟩
      · exact ⟨⟨false, some msg, 0⟩, h, fun _ => rfl⟩
    | write text interval =>
      rcases pyCatch_primResult env hpy (Action.write text interval) with h | ⟨msg, _, h⟩
      · exact ⟨⟨true, none, 0⟩, h, by simp⟩
      · exact ⟨⟨false, some msg, 0⟩, h, fun _ => rfl⟩
    | press key =>
      rcases pyCatch_primResult env hpy (Action.press key) with h | ⟨msg, _, h⟩
      · exact ⟨⟨true, none, 0⟩, h, by simp⟩
      · exact ⟨⟨false, some msg, 0⟩, h, fun _ => rfl⟩
    | hotkey keys =>
      rcases pyCatch_primResult env hpy (Action.hotkey keys) with h | ⟨msg, _, h⟩
      · exact ⟨⟨true, none, 0⟩, h, by simp⟩
      · exact ⟨⟨false, some msg, 0⟩, h, fun _ => rfl⟩
    | wait s => exact ⟨⟨true, none, 0⟩, rfl, by simp⟩
    | screenshot filename =>
      cases hp : env.prim (Action.screenshot filename) with
      | none =>
        exact ⟨⟨true, none, 0⟩, by simp [execute_action, hpy, hp, pyCatch], by simp⟩
      | some msg =>
        exact ⟨⟨false, some msg, 0⟩, by simp [execute_action, hpy, hp, pyCatch],
          fun _ => rfl⟩
    | unknown ty => exact ⟨⟨false, some ("Acción desconocida: " ++ ty), 0⟩, rfl, fun _ => rfl⟩
    | ifVisible target confidence thenA elseA =>
      exact ⟨⟨false, some "Acción desconocida: if-visible", 0⟩, rfl, fun _ => rfl⟩
    | ifNotVisible target confidence thenA elseA =>
      exact ⟨⟨false, some "Acción desconocida: if-not-visible", 0⟩, rfl, fun _ => rfl⟩
  · intro x y d msg hp
    simp [execute_action, primResult, runPrim, hpy, hp, pyCatch]

/-- The environment of the counterexample: pyautogui unavailable. -/
def envC1x : ExecEnv :=
  ⟨⟨false, false, false, [], [], fun _ => none, fun _ => []⟩, fun _ => none⟩

/-- C1, counterexample to the claim as stated: with pyautogui unavailable, a
`move` action reaches `move_smooth`, whose guard calls `error()` =
`sys.exit(1)`; `SystemExit` is not an `Exception`, so the `except
Exception` handler does not convert it into a result and the interpreter
process is killed. -/
theorem claim_C1_counterexample :
    execute_action envC1x (Action.move 1 2 1) = Except.error (PyErr.exit 1) := rfl

/-- A concrete interpreter environment with pyautogui available. -/
def envC1w : ExecEnv :=
  ⟨⟨true, true, true, [], [], fun _ => none, fun _ => []⟩, fun _ => none⟩

theorem claim_C1_witness :
    envC1w.screen.hasPyautogui = true ∧
    ((∀ a : Action, ∃ r : ActionResult,
        execute_action envC1w a = Except.ok r ∧
        (r.success = false → r.error.isSome = true)) ∧
      (∀ (x y : ℤ) (d : ℚ) (msg : String),
        envC1w.prim (Action.move x y d) = some msg →
        execute_action envC1w (Action.move x y d) = Except.ok ⟨false, some msg, 0⟩)) :=
  ⟨rfl, claim_C1_no_escape envC1w rfl⟩

/-- C2: the batch runner executes actions in order and stops at the first
non-conditional failure — on `[A_ok, A_fail, A_ok2]` exactly the first two
results are returned, stamped with their 1-based steps; a conditional action
always contributes a `success = true` result of its own (whatever its
branches do); and a failing action inside the branch a conditional takes
stops the whole batch immediately, returning the results gathered so far. -/
theorem claim_C2_execute_actions (env : ExecEnv) (a1 a2 a3 : Action)
    (r1 r2 : ActionResult)
    (hnc1 : isCond a1 = false) (hnc2 : isCond a2 = false)
    (h1 : execute_action env a1 = Except.ok r1) (hs1 : r1.success = true)
    (h2 : execute_action env a2 = Except.ok r2) (hs2 : r2.success = false)
    (t : String) (conf : ℚ) (b1 : Action) (rb : ActionResult)
    (hb : execute_action env b1 = Except.ok rb) (hsb : rb.success = false)
    (rest : List Action) :
    execute_actions env [a1, a2, a3] =
      Except.ok [{ r1 with step := 1 }, { r2 with step := 2 }] ∧
    (∀ (thenA elseA : List Action) (rs : List ActionResult),
      execute_actions env (Action.ifVisible t conf thenA elseA :: rest) =
        Except.ok rs → rs.head? = some ⟨true, none, 1⟩) ∧
    (∀ (thenA elseA : List Action) (rs : List ActionResult),
      execute_actions env (Action.ifNotVisible t conf thenA elseA :: rest) =
        Except.ok rs → rs.head? = some ⟨true, none, 1⟩) ∧
    execute_actions env (Action.ifVisible t conf [b1] [b1] :: rest) =
      Except.ok [⟨true, none, 1⟩, { rb with step := 1 }] := by
  refine ⟨?_, ?_, ?_, ?_⟩
  · show runActionsAux env [a1, a2, a3] 0 = _
    simp only [runActionsAux, hnc1, hnc2, Bool.false_eq_true, if_false]
    rw [h1, h2]
    simp [hs1, hs2]
  · intro thenA elseA rs h
    rw [show execute_actions env (Action.ifVisible t conf thenA elseA :: rest) =
        runActionsAux env (Action.ifVisible t conf thenA elseA :: rest) 0 from rfl] at h
    simp only [runActionsAux, isCond, if_true] at h
    split at h
    · exact Except.noConfusion h
    · split at h
      · injection h with h
        subst h
        rfl
      · split at h
        · exact Except.noConfusion h
        · injection h with h
          subst h
          rfl
  · intro thenA elseA rs h
    rw [show execute_actions env (Action.ifNotVisible t conf thenA elseA :: rest) =
        runActionsAux env (Action.ifNotVisible t conf thenA elseA :: rest) 0 from rfl] at h
    simp only [runActionsAux, isCond, if_true] at h
    split at h
    · exact Except.noConfusion h
    · split at h
      · injection h with h
        subst h
        rfl
      · split at h
        · exact Except.noConfusion h
        · injection h with h
          subst h
          rfl
  · show runActionsAux env (Action.ifVisible t conf [b1] [b1] :: rest) 0 = _
    simp only [runActionsAux, isCond, if_true]
    cases hv : (find_element_on_screen env.screen t conf).1.isSome <;>
      simp [hv, runBranchList, hb, hsb]

/-- A concrete batch environment: pyautogui available, the primitive of
`press "x"` raises `Exception("boom")`, everything else succeeds. -/
def envC2 : ExecEnv :=
  ⟨⟨true, true, true, [], [], fun _ => none, fun _ => []⟩,
   fun a =>
     match a with
     | Action.press "x" => some "boom"
     | _ => none⟩

theorem claim_C2_witness :
    isCond (Action.wait 1) = false ∧ isCond (Action.press "x") = false ∧
    execute_action envC2 (Action.wait 1) = Except.ok ⟨true, none, 0⟩ ∧
    (⟨true, none, 0⟩ : ActionResult).success = true ∧
    execute_action envC2 (Action.press "x") = Except.ok ⟨false, some "boom", 0⟩ ∧
    (⟨false, some "boom", 0⟩ : ActionResult).success = false ∧
    (execute_actions envC2 [Action.wait 1, Action.press "x", Action.wait 1] =
        Except.ok [⟨true, none, 1⟩, ⟨false, some "boom", 2⟩] ∧
      (∀ (thenA elseA : List Action) (rs : List ActionResult),
        execute_actions envC2 (Action.ifVisible "e" 1 thenA elseA :: []) =
          Except.ok rs → rs.head? = some ⟨true, none, 1⟩) ∧
      (∀ (thenA elseA : List Action) (rs : List ActionResult),
        execute_actions envC2 (Action.ifNotVisible "e" 1 thenA elseA :: []) =
          Except.ok rs → rs.head? = some ⟨true, none, 1⟩) ∧
      execute_actions envC2
          (Action.ifVisible "e" 1 [Action.press "x"] [Action.press "x"] :: []) =
        Except.ok [⟨true, none, 1⟩, ⟨false, some "boom", 1⟩]) := by
  refine ⟨rfl, rfl, rfl, rfl, rfl, rfl, ?_⟩
  have h := claim_C2_execute_actions envC2 (Action.wait 1) (Action.press "x")
    (Action.wait 1) ⟨true, none, 0⟩ ⟨false, some "boom", 0⟩ rfl rfl rfl rfl rfl rfl
    "e" 1 (Action.press "x") ⟨false, some "boom", 0⟩ rfl rfl []
  exact h

theorem claim_C3_witness :
    envC3w.hasPyautogui = true ∧ envC3w.hasCv2 = true ∧ envC3w.screenshotOk = true ∧
    (0 : ℚ) < 1/2 ∧
    ((find_element_on_screen envC3w "b" (1/2)).1 =
      (firstHighest (collectMatches envC3w (1/2) (candidateImages envC3w "b"))).map
        (fun m => (m.x, m.y)) ∧
     (find_element_on_screen envC3w "b" (1/2)).2.1 =
      (if collectMatches envC3w (1/2) (candidateImages envC3w "b") = [] then "not_found"
       else "image") ∧
     (find_element_on_screen envC3w "b" (1/2)).2.2.best_score =
      ((firstHighest (collectMatches envC3w (1/2) (candidateImages envC3w "b"))).map
        AMatch.score).getD 0 ∧
     (find_element_on_screen envC3w "b" (1/2)).2.2.matches_found =
      (collectMatches envC3w (1/2) (candidateImages envC3w "b")).length ∧
     (find_element_on_screen envC3w "b" (1/2)).2.2.all_matches.Pairwise
      (fun a b => b.score ≤ a.score) ∧
     (find_element_on_screen envC3w "b" (1/2)).2.2.images_tested =
      (candidateImages envC3w "b").length) :=
  ⟨rfl, rfl, rfl, by norm_num,
   claim_C3_best_match envC3w "b" (1/2) rfl rfl rfl (by norm_num)⟩

end MacroAgent
